import Mathlib

/-!
Verification development for the QMicroz archive-session library.

Names (QString) are modelled as lists of characters, payload bytes
(QByteArray) as lists of naturals, and the QMap containers of Qt as
association lists kept sorted by key, mirroring QMap's key-ordered
iteration.  The miniz container primitive (excluded from the core by the
spec) is modelled as the ordered list of appended entries.
-/

abbrev Name : Type := List Char
abbrev Bytes : Type := List Nat

def sepChar : Char := '/'

def backslash : Char := Char.ofNat 92

/-- QChar comparison used by QMap ordering: lexicographic on code points. -/
def nameLtB : Name → Name → Bool
  | [], [] => false
  | [], _ :: _ => true
  | _ :: _, [] => false
  | a :: s, b :: t =>
    if a.toNat < b.toNat then true
    else if b.toNat < a.toNat then false
    else nameLtB s t

/-- Shorthand for building a Name out of a string literal. -/
def nm (s : String) : Name := s.data

/-- ZipContents: QMap of entry name to container index, kept sorted by key. -/
abbrev ZMap : Type := List (Name × Int)

def mapInsert (k : Name) (v : Int) : ZMap → ZMap
  | [] => [(k, v)]
  | (q, w) :: t =>
    if nameLtB k q then (k, v) :: (q, w) :: t
    else if k = q then (k, v) :: t
    else (q, w) :: mapInsert k v t

def mapLookup : ZMap → Name → Option Int
  | [], _ => none
  | (q, w) :: t, k => if k = q then some w else mapLookup t k

def mapContains (m : ZMap) (k : Name) : Bool := (mapLookup m k).isSome

def mapSize (m : ZMap) : Int := (m.length : Int)

/-! ## Path utilities (qmztools.h / qmztools.cpp) -/

/-- QString.endsWith(s_sep). -/
def endsWithSep : Name → Bool
  | [] => false
  | [c] => c = sepChar
  | _ :: c :: t => endsWithSep (c :: t)

/-- tools::isFolderItem / isFolderName: trailing separator test. -/
def isFolderName (n : Name) : Bool := endsWithSep n

/-- tools::isFileItem / isFileName: nonempty, no trailing separator. -/
def isFileName (n : Name) : Bool := !n.isEmpty && !endsWithSep n

/-- tools::toFolderName: appends the separator when absent. -/
def toFolderName (n : Name) : Name :=
  if endsWithSep n then n else n ++ [sepChar]

/-- The isSep lambda inside tools::joinPath: slash or backslash. -/
def isSepChar (c : Char) : Bool := c = sepChar || c = backslash

/-- Whether the last character is a separator (QString.back() test on nonempty). -/
def lastIsSep : Name → Bool
  | [] => false
  | [c] => isSepChar c
  | _ :: c :: t => lastIsSep (c :: t)

/-- Whether the first character is a separator (QString.front() test on nonempty). -/
def headIsSep : Name → Bool
  | [] => false
  | c :: _ => isSepChar c

/-- tools::joinPath from qmztools.cpp: checks both boundary characters. -/
def joinPath (absPath relPath : Name) : Name :=
  if lastIsSep absPath && headIsSep relPath then absPath.dropLast ++ relPath
  else if lastIsSep absPath || headIsSep relPath then absPath ++ relPath
  else absPath ++ [sepChar] ++ relPath

/-- tools::endsWithSlash from tools.cpp. -/
def endsWithSlash (p : Name) : Bool := lastIsSep p

/-- tools::joinPath from tools.cpp (legacy iteration): checks the base side only. -/
def joinPathLegacy (absPath relPath : Name) : Name :=
  if endsWithSlash absPath then absPath ++ relPath
  else absPath ++ [sepChar] ++ relPath

/-- QFileInfo(name).fileName(): the final path component (after the last slash). -/
def baseName (n : Name) : Name :=
  ((n.reverse.takeWhile (fun c => c ≠ sepChar))).reverse

/-! ## The container primitive (miniz), modelled as an ordered entry list. -/

/-- One stored container entry: name, payload bytes, stored modification time
(0 when the writer substituted the external current time). -/
structure ZEntry where
  name : Name
  data : Bytes
  mtime : Int
deriving DecidableEq, Repr

/-- mz_zip_mode as observed through tools::zipMode. -/
inductive MzMode where
  | invalid
  | reading
  | writing
deriving DecidableEq, Repr

/-- An open mz_zip_archive: its mode and its ordered entries. -/
structure Archive where
  mode : MzMode
  entries : List ZEntry
deriving DecidableEq, Repr

/-- tools::zipMode: MZ_ZIP_MODE_INVALID on a null handle. -/
def zipMode : Option Archive → MzMode
  | none => .invalid
  | some a => a.mode

/-- tools::za_file_stat: a zeroed stat record on a null handle or a bad
index, otherwise the stored entry record. -/
def zaFileStat (arch : Option Archive) (index : Int) : ZEntry :=
  match arch with
  | none => ⟨[], [], 0⟩
  | some a =>
    if 0 ≤ index then
      match a.entries.get? index.toNat with
      | some e => e
      | none => ⟨[], [], 0⟩
    else ⟨[], [], 0⟩

/-! ## The archive session (class QMicroz). -/

/-- BufFile: an in-memory payload; modified ≤ 0 models an invalid QDateTime. -/
structure BufFile where
  name : Name
  data : Bytes
  modified : Int
deriving DecidableEq, Repr

/-- QMicroz session state (m_verbose omitted: pure logging). -/
structure QMicroz where
  m_archive : Option Archive
  m_zip_path : Name
  m_output_folder : Name
  m_zip_entries : ZMap
deriving DecidableEq, Repr

/-- The default-constructed session QMicroz(). -/
def emptySession : QMicroz := ⟨none, [], [], []⟩

namespace QMicroz

inductive Mode where
  | modeAuto
  | modeRead
  | modeWrite
deriving DecidableEq, Repr

def isModeReading (q : QMicroz) : Bool := zipMode q.m_archive = .reading

def isModeWriting (q : QMicroz) : Bool := zipMode q.m_archive = .writing

def count (q : QMicroz) : Int :=
  match q.m_archive with
  | none => 0
  | some a => (a.entries.length : Int)

def name (q : QMicroz) (index : Int) : Name :=
  (zaFileStat q.m_archive index).name

def sizeCompressed (q : QMicroz) (index : Int) : Int :=
  match q.m_archive with
  | none => 0
  | some _ =>
    -- the compressed size is produced by the excluded compression
    -- primitive; the model stores entries verbatim
    ((zaFileStat q.m_archive index).data.length : Int)

def sizeUncompressed (q : QMicroz) (index : Int) : Int :=
  match q.m_archive with
  | none => 0
  | some _ => ((zaFileStat q.m_archive index).data.length : Int)

/-- QMicroz::lastModified: none models an invalid QDateTime. -/
def lastModified (q : QMicroz) (index : Int) : Option Int :=
  match q.m_archive with
  | none => none
  | some _ =>
    let sec := (zaFileStat q.m_archive index).mtime
    if 0 < sec then some sec else none

def isFolder (q : QMicroz) (index : Int) : Bool := isFolderName (q.name index)

def isFile (q : QMicroz) (index : Int) : Bool := isFileName (q.name index)

/-- QMicroz::updateZipContents loop body: index it, skipping empty names. -/
def buildMapAux (i : Int) : List ZEntry → ZMap → ZMap
  | [], m => m
  | e :: t, m =>
    buildMapAux (i + 1) t (if e.name = [] then m else mapInsert e.name i m)

def buildMap (es : List ZEntry) : ZMap := buildMapAux 0 es []

/-- QMicroz::updateZipContents: clears and repopulates from the container. -/
def updateZipContents (arch : Option Archive) : ZMap :=
  match arch with
  | none => []
  | some a => buildMap a.entries

/-- QMicroz::findIndex: exact map lookup, then (separator-free queries only)
the first entry in QMap key order that is a file whose final path component
matches; -1 when nothing matched. -/
def findIndexAux : ZMap → Name → Int
  | [], _ => -1
  | (k, v) :: t, fileName =>
    if isFileName k && fileName = baseName k then v else findIndexAux t fileName

def findIndex (q : QMicroz) (fileName : Name) : Int :=
  match mapLookup q.m_zip_entries fileName with
  | some i => i
  | none =>
    if !fileName.contains sepChar then findIndexAux q.m_zip_entries fileName
    else -1

/-- QMicroz::addEntry specialised to the mz append the callers request:
rejects empty names and duplicates before touching the container, appends
the entry on success and records name ↦ previous directory size. -/
def addEntry (q : QMicroz) (entryName : Name) (data : Bytes) (mtime : Int) :
    Bool × QMicroz :=
  if entryName = [] then (false, q)
  else if mapContains q.m_zip_entries entryName then (false, q)
  else
    match q.m_archive with
    | some a =>
      if a.mode = .writing then
        (true,
          { q with
            m_archive := some ⟨.writing, a.entries ++ [⟨entryName, data, mtime⟩]⟩,
            m_zip_entries :=
              mapInsert entryName (mapSize q.m_zip_entries) q.m_zip_entries })
      else (false, q)  -- mz append fails on a non-writer handle
    | none => (false, q)  -- mz append fails on a null handle

/-- QMicroz::addToZip(const BufFile&): folder-named entries are written with
an empty payload; a nonpositive modified time stands for the external
current-time default (stored as 0). -/
def addToZipBuf (q : QMicroz) (bf : BufFile) : Bool × QMicroz :=
  if !q.isModeWriting then (false, q)
  else
    let data := if isFolderName bf.name then [] else bf.data
    addEntry q bf.name data (if 0 < bf.modified then bf.modified else 0)

/-- QMicroz::addToZip(const BufList&): per-item addToZip(BufFile), aborting
on first failure; after each success the caller re-assigns
m_zip_entries[key] = m_zip_entries.size().  The input list is the BufList
QMap content in its key order. -/
def addToZipList (q : QMicroz) : List (Name × Bytes) → Bool × QMicroz
  | [] => (true, q)
  | (k, v) :: rest =>
    let r := addToZipBuf q ⟨k, v, 0⟩
    if r.1 then
      addToZipList
        { r.2 with
          m_zip_entries := mapInsert k (mapSize r.2.m_zip_entries) r.2.m_zip_entries }
        rest
    else (false, r.2)

end QMicroz

/-! ## Filesystem and disk model.

Modelled from the spec: the on-disk byte framing of the container lives
entirely inside the excluded container primitive; a path or buffer is
classified as a container by the 2-byte magic probe.  A finalized archive
on disk is therefore represented by its entry list (its serialization
begins with the magic), and anything else by raw bytes that miss the
probe. -/

inductive DiskContent where
  | zipArchive (entries : List ZEntry)
  | rawBytes (bytes : Bytes)
deriving DecidableEq, Repr

/-- The filesystem as a partial map from paths to file contents. -/
abbrev FileSys : Type := Name → Option DiskContent

def fsWrite (fs : FileSys) (p : Name) (c : DiskContent) : FileSys :=
  fun x => if x = p then some c else fs x

/-- QMicroz::isZipFile: the file opens and its first two bytes pass the
magic probe; in the disk model exactly the finalized containers do. -/
def isZipFile (fs : FileSys) (filePath : Name) : Bool :=
  match fs filePath with
  | some (.zipArchive _) => true
  | _ => false

/-- QFileInfo::exists. -/
def fsExists (fs : FileSys) (p : Name) : Bool := (fs p).isSome

/-- Modelled from the spec: QFileInfo::absolutePath resolves a path's
parent directory; for a path holding a separator this is the part before
the last separator (resolution of separator-free paths against the
process working directory is outside the model). -/
def absolutePathOf (p : Name) : Name :=
  match p.reverse.dropWhile (fun c => c ≠ sepChar) with
  | [] => []
  | _ :: t => t.reverse

/-! Modelled from the spec: the filesystem walk (QDirIterator with the
Subdirectories flag) is an external collaborator; it emits each
descendant once, as a path relative to the source root, in deterministic
folder-before-contents order.  The walk output is therefore taken as a
listing of relative paths tagged file/folder. -/

inductive FsKind where
  | fsFile
  | fsDir
deriving DecidableEq, Repr

/-- One walk item: dir.relativeFilePath(fullPath), its kind, and (for
files) the payload the file holds on disk. -/
structure FsItem where
  rel : Name
  kind : FsKind
  data : Bytes
deriving DecidableEq, Repr

namespace QMicroz

/-- QMicroz::closeArchive: finalizing a writer publishes its entries to
disk at m_zip_path; every field of the session is cleared. -/
def closeArchive (fs : FileSys) (q : QMicroz) : FileSys × QMicroz :=
  match q.m_archive with
  | none => (fs, q)
  | some a =>
    let fsOut :=
      if a.mode = .writing then fsWrite fs q.m_zip_path (.zipArchive a.entries)
      else fs
    (fsOut, emptySession)

/-- QMicroz::setZipFile: closes any prior session first, resolves the
effective mode from the policy, then attaches a fresh handle.  The writer
init truncates the target on disk (modelled always successful; a failing
reader init cannot occur for a probed container in the disk model). -/
def setZipFile (fs : FileSys) (q : QMicroz) (zipPath : Name) (mode : Mode) :
    Bool × QMicroz × FileSys :=
  let c := closeArchive fs q
  let fs1 := c.1
  let q1 := c.2
  let zamode : Option Mode :=
    match mode with
    | .modeAuto =>
      if !fsExists fs1 zipPath then some .modeWrite
      else if isZipFile fs1 zipPath then some .modeRead
      else none
    | .modeRead => if isZipFile fs1 zipPath then some .modeRead else none
    | .modeWrite => some .modeWrite
  match zamode with
  | none => (false, q1, fs1)
  | some .modeWrite =>
    (true,
      { q1 with m_archive := some ⟨.writing, []⟩, m_zip_path := zipPath },
      fsWrite fs1 zipPath (.rawBytes []))
  | some .modeRead =>
    match fs1 zipPath with
    | some (.zipArchive es) =>
      let q2 :=
        { q1 with m_archive := some ⟨.reading, es⟩, m_zip_path := zipPath }
      (true,
        { q2 with
          m_zip_entries := updateZipContents q2.m_archive,
          m_output_folder := absolutePathOf zipPath },
        fs1)
    | _ => (false, q1, fs1)
  | some .modeAuto => (false, q1, fs1)

/-- The session state produced by a successful open for writing. -/
def freshWriter (zipPath : Name) : QMicroz :=
  { m_archive := some ⟨.writing, []⟩
    m_zip_path := zipPath
    m_output_folder := []
    m_zip_entries := [] }

/-! ### Extraction -/

/-- QMicroz::extractDataRef: mz_zip_reader_extract_to_heap returns the
stored payload for a valid index of a reading session, null otherwise. -/
def extractDataRef (q : QMicroz) (index : Int) : Option Bytes :=
  if !q.isModeReading then none
  else
    match q.m_archive with
    | some a =>
      if 0 ≤ index then
        match a.entries.get? index.toNat with
        | some e => some e.data
        | none => none
      else none
    | none => none

/-- QMicroz::extractData: a copy of the extracted payload, empty on failure. -/
def extractData (q : QMicroz) (index : Int) : Bytes :=
  match extractDataRef q index with
  | none => []
  | some d => d

/-- QMicroz::extractIndex(int, QString): success predicate of one entry
extraction; directory creation and the mz file write are external I/O,
modelled successful. -/
def extractIndex (q : QMicroz) (index : Int) (outputPath : Name) : Bool :=
  if index = -1 then false
  else if q.m_archive = none then false
  else if !q.isModeReading then false
  else
    let filename := q.name index
    if filename = [] then false
    else if isFileName filename then
      -- parent folder created, then mz_zip_reader_extract_to_file
      true
    else
      -- folder entry: createFolder(outputPath)
      let _ := outputPath
      true

/-- QMicroz::extractFolder(int, QString): besides the success flag the
model records each (entry name, output path) pair whose extraction was
performed, in the QMap iteration order of the directory. -/
def extractFolderAux (q : QMicroz) (folderEntry : Name) (outputPath : Name) :
    ZMap → Bool × List (Name × Name)
  | [] => (false, [])
  | (k, v) :: t =>
    let rest := extractFolderAux q folderEntry outputPath t
    if folderEntry.isPrefixOf k then
      let relPath := k.drop folderEntry.length
      let tgt := joinPath outputPath relPath
      if extractIndex q v tgt then (true, (k, tgt) :: rest.2)
      else rest
    else rest

def extractFolder (q : QMicroz) (index : Int) (outputPath : Name) :
    Bool × List (Name × Name) :=
  if !q.isFolder index then (false, [])
  else extractFolderAux q (q.name index) outputPath q.m_zip_entries

/-! ### Recursive directory add (QMicroz::addToZip(QString, QString)). -/

/-- The addFolder lambda: addToZip(BufFile(toFolderName(entry), modified)). -/
def addFolderOp (q : QMicroz) (entry : Name) (modified : Int) : Bool × QMicroz :=
  addToZipBuf q ⟨toFolderName entry, [], modified⟩

/-- The addFile lambda: addEntry(entry, mz_zip_writer_add_file(...)). -/
def addFileOp (q : QMicroz) (source : Bytes) (entry : Name) : Bool × QMicroz :=
  addEntry q entry source 0

/-- The QDirIterator loop of the directory branch. -/
def addDirLoop (entryName : Name) (added : Bool) (q : QMicroz) :
    List FsItem → Bool × QMicroz
  | [] => (added, q)
  | it :: rest =>
    let relPath := joinPath entryName it.rel
    let r :=
      match it.kind with
      | .fsFile => addFileOp q it.data relPath
      | .fsDir => addFolderOp q relPath 0
    addDirLoop entryName (added || r.1) r.2 rest

/-- QMicroz::addToZip(QString, QString), directory branch: the source
exists and is a directory whose recursive walk yields the listing. -/
def addToZipDir (q : QMicroz) (entryName : Name) (listing : List FsItem) :
    Bool × QMicroz :=
  if q.m_archive = none || entryName = [] then (false, q)
  else if !q.isModeWriting then (false, q)
  else
    let r0 := addFolderOp q entryName 0
    addDirLoop entryName r0.1 r0.2 listing

/-- Sequential addToZip(BufFile) calls of one write session. -/
def runBufAdds (q : QMicroz) : List BufFile → QMicroz
  | [] => q
  | bf :: rest => runBufAdds (addToZipBuf q bf).2 rest

end QMicroz

/-! ## Derived specification-side notions used to state the claims. -/

/-- The container index the directory should associate to a name: the
position of the (unique) entry carrying it. -/
def dirIndexOfAux (i : Int) : List ZEntry → Name → Option Int
  | [], _ => none
  | e :: t, n => if e.name = n then some i else dirIndexOfAux (i + 1) t n

def dirIndexOf (es : List ZEntry) (n : Name) : Option Int := dirIndexOfAux 0 es n

def namesOf (es : List ZEntry) : List Name := es.map ZEntry.name

/-- Consistency of a write session with its container: the handle is a
writer over the entries, the directory mirrors them, and the recorded
names are nonempty and pairwise distinct. -/
def InvW (q : QMicroz) (es : List ZEntry) : Prop :=
  q.m_archive = some ⟨.writing, es⟩ ∧
  q.m_zip_entries = QMicroz.buildMap es ∧
  [] ∉ namesOf es ∧ (namesOf es).Nodup

/-- Consistency of a read session with its container. -/
def InvR (q : QMicroz) (es : List ZEntry) : Prop :=
  q.m_archive = some ⟨.reading, es⟩ ∧
  q.m_zip_entries = QMicroz.buildMap es ∧
  [] ∉ namesOf es ∧ (namesOf es).Nodup

/-- QMap association lists are kept strictly sorted by key. -/
def SortedKeys (m : ZMap) : Prop :=
  m.Pairwise (fun a b => nameLtB a.1 b.1 = true)

def stripTrailSeps (a : Name) : Name := (a.reverse.dropWhile isSepChar).reverse

def stripLeadSeps (r : Name) : Name := r.dropWhile isSepChar

def trailSepCount (a : Name) : Nat := (a.reverse.takeWhile isSepChar).length

def leadSepCount (r : Name) : Nat := (r.takeWhile isSepChar).length

/-- The (entry name, payload) pair one walk item contributes. -/
def emitPair (entryName : Name) (it : FsItem) : Name × Bytes :=
  match it.kind with
  | .fsFile => (joinPath entryName it.rel, it.data)
  | .fsDir => (toFolderName (joinPath entryName it.rel), [])

/-- The archive-internal name a walk item receives. -/
def fullEntryName (entryName : Name) (it : FsItem) : Name :=
  (emitPair entryName it).1

/-- Folding bare addEntry calls over (name, payload) pairs. -/
def runPairAdds (q : QMicroz) : List (Name × Bytes) → QMicroz
  | [] => q
  | (n, d) :: rest => runPairAdds (q.addEntry n d 0).2 rest

def countFiles (listing : List FsItem) : Nat :=
  listing.countP (fun it => it.kind = .fsFile)

def countDirs (listing : List FsItem) : Nat :=
  listing.countP (fun it => it.kind = .fsDir)

/-- A filesystem-walk item is a nonempty relative path with no boundary
separator on either side. -/
def WFItem (it : FsItem) : Prop :=
  it.rel ≠ [] ∧ headIsSep it.rel = false ∧ lastIsSep it.rel = false

/-- Closing a session (finalizing its archive to disk) and reopening the
same path for reading. -/
def closeAndReopen (fs : FileSys) (p : Name) (s : QMicroz) :
    Bool × QMicroz × FileSys :=
  let c := QMicroz.closeArchive fs s
  QMicroz.setZipFile c.1 c.2 p .modeRead

/-- A concrete filesystem walk: one subdirectory, a file inside it, and a
root-level file, listed in depth-first folder-before-contents order. -/
def demoListing : List FsItem :=
  [⟨nm ("sub"), .fsDir, []⟩,
   ⟨nm ("sub/f.txt"), .fsFile, [1]⟩,
   ⟨nm ("g.txt"), .fsFile, [2]⟩]


/-! ## Order lemmas for the QMap key comparison. -/

theorem charToNat_inj {a b : Char} (h : a.toNat = b.toNat) : a = b :=
  Char.eq_of_val_eq (UInt32.eq_of_toBitVec_eq (BitVec.eq_of_toNat_eq h))

theorem nameLt_irrefl : ∀ a : Name, nameLtB a a = false
  | [] => rfl
  | c :: t => by simp [nameLtB, nameLt_irrefl t]

theorem nameLt_asymm : ∀ a b : Name, nameLtB a b = true → nameLtB b a = false
  | [], [], h => by simp [nameLtB] at h
  | [], _ :: _, _ => by simp [nameLtB]
  | _ :: _, [], h => by simp [nameLtB] at h
  | x :: s, y :: t, h => by
    simp only [nameLtB] at h ⊢
    by_cases h1 : x.toNat < y.toNat
    · have h2 : ¬y.toNat < x.toNat := by omega
      simp [h1, h2]
    · by_cases h2 : y.toNat < x.toNat
      · simp [h1, h2] at h
      · have := nameLt_asymm s t (by simpa [h1, h2] using h)
        simp [h1, h2, this]

theorem nameLt_trans : ∀ a b c : Name,
    nameLtB a b = true → nameLtB b c = true → nameLtB a c = true
  | [], [], _, h1, _ => by simp [nameLtB] at h1
  | [], _ :: _, [], _, h2 => by simp [nameLtB] at h2
  | [], _ :: _, _ :: _, _, _ => by simp [nameLtB]
  | _ :: _, [], _, h1, _ => by simp [nameLtB] at h1
  | _ :: _, _ :: _, [], _, h2 => by simp [nameLtB] at h2
  | x :: s, y :: t, z :: u, h1, h2 => by
    simp only [nameLtB] at h1 h2 ⊢
    by_cases hxy : x.toNat < y.toNat <;> by_cases hyz : y.toNat < z.toNat
    · have : x.toNat < z.toNat := by omega
      simp [this]
    · by_cases hzy : z.toNat < y.toNat
      · simp [hyz, hzy] at h2
      · have : x.toNat < z.toNat := by omega
        simp [this]
    · by_cases hyx : y.toNat < x.toNat
      · simp [hxy, hyx] at h1
      · have : x.toNat < z.toNat := by omega
        simp [this]
    · by_cases hyx : y.toNat < x.toNat
      · simp [hxy, hyx] at h1
      · by_cases hzy : z.toNat < y.toNat
        · simp [hyz, hzy] at h2
        · have hxz : ¬x.toNat < z.toNat := by omega
          have hzx : ¬z.toNat < x.toNat := by omega
          have := nameLt_trans s t u (by simpa [hxy, hyx] using h1)
            (by simpa [hyz, hzy] using h2)
          simp [hxz, hzx, this]

theorem nameLt_total : ∀ a b : Name, a ≠ b → nameLtB a b = true ∨ nameLtB b a = true
  | [], [], h => absurd rfl h
  | [], _ :: _, _ => Or.inl (by simp [nameLtB])
  | _ :: _, [], _ => Or.inr (by simp [nameLtB])
  | x :: s, y :: t, h => by
    by_cases hxy : x.toNat < y.toNat
    · exact Or.inl (by simp [nameLtB, hxy])
    · by_cases hyx : y.toNat < x.toNat
      · exact Or.inr (by simp [nameLtB, hyx])
      · have hx : x = y := charToNat_inj (by omega)
        have hst : s ≠ t := by
          intro he
          exact h (by rw [hx, he])
        rcases nameLt_total s t hst with h1 | h1
        · exact Or.inl (by simp [nameLtB, hxy, hyx, h1])
        · exact Or.inr (by simp [nameLtB, hx, nameLt_irrefl, h1])

theorem nameLt_ne {a b : Name} (h : nameLtB a b = true) : a ≠ b := by
  intro he
  rw [he, nameLt_irrefl] at h
  exact Bool.false_ne_true h

/-! ## QMap association-list lemmas. -/

theorem mapLookup_insert_self (k : Name) (v : Int) :
    ∀ m : ZMap, mapLookup (mapInsert k v m) k = some v
  | [] => by simp [mapInsert, mapLookup]
  | (q, w) :: t => by
    by_cases h1 : nameLtB k q
    · simp [mapInsert, h1, mapLookup]
    · by_cases h2 : k = q
      · subst h2
        simp [mapInsert, h1, mapLookup]
      · simp [mapInsert, h1, h2, mapLookup, mapLookup_insert_self k v t]

theorem mapLookup_insert_ne (k : Name) (v : Int) (x : Name) (hx : x ≠ k) :
    ∀ m : ZMap, mapLookup (mapInsert k v m) x = mapLookup m x
  | [] => by simp [mapInsert, mapLookup, hx]
  | (q, w) :: t => by
    by_cases h1 : nameLtB k q
    · simp [mapInsert, h1, mapLookup, hx]
    · by_cases h2 : k = q
      · subst h2
        simp [mapInsert, h1, mapLookup, hx]
      · by_cases h3 : x = q
        · simp [mapInsert, h1, h2, mapLookup, h3]
        · simp [mapInsert, h1, h2, mapLookup, h3, mapLookup_insert_ne k v x hx t]

theorem length_mapInsert_fresh (k : Name) (v : Int) :
    ∀ m : ZMap, mapLookup m k = none → (mapInsert k v m).length = m.length + 1
  | [], _ => by simp [mapInsert]
  | (q, w) :: t, h => by
    by_cases h2 : k = q
    · subst h2
      simp [mapLookup] at h
    · simp only [mapLookup, if_neg h2] at h
      by_cases h1 : nameLtB k q
      · simp [mapInsert, h1]
      · simp [mapInsert, h1, h2, length_mapInsert_fresh k v t h]

theorem mem_mapInsert {x : Name × Int} (k : Name) (v : Int) :
    ∀ m : ZMap, x ∈ mapInsert k v m → x = (k, v) ∨ x ∈ m
  | [], h => by simpa [mapInsert] using h
  | (q, w) :: t, h => by
    by_cases h1 : nameLtB k q
    · simp only [mapInsert, h1, if_true] at h
      rcases List.mem_cons.mp h with h | h
      · exact Or.inl h
      · exact Or.inr h
    · by_cases h2 : k = q
      · subst h2
        have he : mapInsert k v ((k, w) :: t) = (k, v) :: t := by
          simp [mapInsert, h1]
        rw [he] at h
        rcases List.mem_cons.mp h with h | h
        · exact Or.inl h
        · exact Or.inr (List.mem_cons_of_mem _ h)
      · have he : mapInsert k v ((q, w) :: t) = (q, w) :: mapInsert k v t := by
          simp [mapInsert, h1, h2]
        rw [he] at h
        rcases List.mem_cons.mp h with h | h
        · exact Or.inr (by simp [h])
        · rcases mem_mapInsert k v t h with h3 | h3
          · exact Or.inl h3
          · exact Or.inr (List.mem_cons_of_mem _ h3)

theorem mem_of_mapLookup : ∀ {m : ZMap} {k : Name} {v : Int},
    mapLookup m k = some v → (k, v) ∈ m
  | [], _, _, h => by simp [mapLookup] at h
  | (q, w) :: t, k, v, h => by
    by_cases h2 : k = q
    · subst h2
      simp [mapLookup] at h
      subst h
      exact List.mem_cons_self _ _
    · simp only [mapLookup, if_neg h2] at h
      exact List.mem_cons_of_mem _ (mem_of_mapLookup h)

theorem mapInsert_sorted (k : Name) (v : Int) :
    ∀ m : ZMap, SortedKeys m → SortedKeys (mapInsert k v m)
  | [], _ => by simp [mapInsert, SortedKeys]
  | (q, w) :: t, hs => by
    rw [SortedKeys, List.pairwise_cons] at hs
    obtain ⟨hq, ht⟩ := hs
    by_cases h1 : nameLtB k q
    · rw [SortedKeys]
      simp only [mapInsert, h1, if_true]
      rw [List.pairwise_cons]
      constructor
      · intro x hx
        rcases List.mem_cons.mp hx with hx | hx
        · simpa [hx] using h1
        · exact nameLt_trans _ _ _ h1 (hq x hx)
      · rw [List.pairwise_cons]
        exact ⟨hq, ht⟩
    · by_cases h2 : k = q
      · subst h2
        have he : mapInsert k v ((k, w) :: t) = (k, v) :: t := by
          simp [mapInsert, h1]
        rw [SortedKeys, he, List.pairwise_cons]
        exact ⟨hq, ht⟩
      · have he : mapInsert k v ((q, w) :: t) = (q, w) :: mapInsert k v t := by
          simp [mapInsert, h1, h2]
        rw [SortedKeys, he, List.pairwise_cons]
        constructor
        · intro x hx
          rcases mem_mapInsert k v t hx with h3 | h3
          · rcases nameLt_total k q h2 with h4 | h4
            · exact absurd h4 (by simp [h1])
            · simpa [h3] using h4
          · exact hq x h3
        · exact mapInsert_sorted k v t ht

theorem mapLookup_of_mem {m : ZMap} (hs : SortedKeys m) {k : Name} {v : Int}
    (h : (k, v) ∈ m) : mapLookup m k = some v := by
  induction m with
  | nil => simp at h
  | cons hd t ih =>
    obtain ⟨q, w⟩ := hd
    rw [SortedKeys, List.pairwise_cons] at hs
    rcases List.mem_cons.mp h with h | h
    · cases h
      simp [mapLookup]
    · have hne : k ≠ q := by
        intro he
        have h5 := hs.1 (k, v) h
        rw [he] at h5
        rw [nameLt_irrefl] at h5
        exact Bool.false_ne_true h5
      simp [mapLookup, hne, ih hs.2 h]

/-! ## Directory / container correspondence. -/

theorem buildMapAux_append (e : ZEntry) (he : e.name ≠ []) :
    ∀ (l : List ZEntry) (i : Int) (m : ZMap),
      QMicroz.buildMapAux i (l ++ [e]) m =
        mapInsert e.name (i + (l.length : Int)) (QMicroz.buildMapAux i l m)
  | [], i, m => by simp [QMicroz.buildMapAux, he]
  | x :: t, i, m => by
    show QMicroz.buildMapAux (i + 1) (t ++ [e])
        (if x.name = [] then m else mapInsert x.name i m) =
      mapInsert e.name (i + (((x :: t).length : Nat) : Int))
        (QMicroz.buildMapAux (i + 1) t (if x.name = [] then m else mapInsert x.name i m))
    rw [buildMapAux_append e he t (i + 1)]
    congr 1
    push_cast [List.length_cons]
    ring

theorem buildMap_append (es : List ZEntry) (e : ZEntry) (he : e.name ≠ []) :
    QMicroz.buildMap (es ++ [e]) =
      mapInsert e.name (es.length : Int) (QMicroz.buildMap es) := by
  rw [QMicroz.buildMap, QMicroz.buildMap, buildMapAux_append e he es 0]
  norm_num

theorem dirIndexOfAux_eq_none_iff (n : Name) :
    ∀ (es : List ZEntry) (i : Int), dirIndexOfAux i es n = none ↔ n ∉ namesOf es
  | [], i => by simp [dirIndexOfAux, namesOf]
  | e :: t, i => by
    by_cases he : e.name = n
    · simp [dirIndexOfAux, he, namesOf]
    · simp only [dirIndexOfAux, he, if_false, if_neg he]
      rw [dirIndexOfAux_eq_none_iff n t (i + 1)]
      simp [namesOf]
      intro _
      exact fun hh => he hh.symm

theorem dirIndexOf_eq_none_iff (es : List ZEntry) (n : Name) :
    dirIndexOf es n = none ↔ n ∉ namesOf es :=
  dirIndexOfAux_eq_none_iff n es 0

theorem dirIndexOfAux_append_of_some (e : ZEntry) (n : Name) {j : Int} :
    ∀ (l : List ZEntry) (i : Int), dirIndexOfAux i l n = some j →
      dirIndexOfAux i (l ++ [e]) n = some j
  | [], i, h => by simp [dirIndexOfAux] at h
  | x :: t, i, h => by
    by_cases hx : x.name = n
    · simpa [dirIndexOfAux, hx] using h
    · simp only [dirIndexOfAux, hx, if_neg hx, List.cons_append] at h ⊢
      exact dirIndexOfAux_append_of_some e n t (i + 1) h

theorem dirIndexOfAux_append_of_none (e : ZEntry) (n : Name) :
    ∀ (l : List ZEntry) (i : Int), dirIndexOfAux i l n = none →
      dirIndexOfAux i (l ++ [e]) n =
        (if e.name = n then some (i + (l.length : Int)) else none)
  | [], i, _ => by simp [dirIndexOfAux]
  | x :: t, i, h => by
    have hstep : dirIndexOfAux i (x :: t) n =
        (if x.name = n then some i else dirIndexOfAux (i + 1) t n) := rfl
    by_cases hx : x.name = n
    · rw [hstep, if_pos hx] at h
      exact absurd h (by simp)
    · rw [hstep, if_neg hx] at h
      show (if x.name = n then some i else dirIndexOfAux (i + 1) (t ++ [e]) n) =
        (if e.name = n then some (i + (((x :: t).length : Nat) : Int)) else none)
      rw [if_neg hx, dirIndexOfAux_append_of_none e n t (i + 1) h]
      by_cases he : e.name = n
      · rw [if_pos he, if_pos he]
        congr 1
        push_cast [List.length_cons]
        ring
      · rw [if_neg he, if_neg he]

theorem mapLookup_buildMap (es : List ZEntry) (h0 : [] ∉ namesOf es)
    (hd : (namesOf es).Nodup) (n : Name) :
    mapLookup (QMicroz.buildMap es) n = dirIndexOf es n := by
  induction es using List.reverseRecOn with
  | nil => simp [QMicroz.buildMap, QMicroz.buildMapAux, mapLookup, dirIndexOf, dirIndexOfAux]
  | append_singleton es e ih =>
    have hnames : namesOf (es ++ [e]) = namesOf es ++ [e.name] := by simp [namesOf]
    rw [hnames] at h0 hd
    have hne : e.name ≠ [] := by
      intro hh
      exact h0 (by simp [hh])
    have h0' : [] ∉ namesOf es := fun hh => h0 (by simp [hh])
    have hd' : (namesOf es).Nodup := hd.of_append_left
    have hfresh : e.name ∉ namesOf es := by
      intro hh
      rcases List.nodup_append.mp hd with ⟨_, _, hdisj⟩
      exact hdisj hh (by simp)
    rw [buildMap_append es e hne]
    by_cases hn : n = e.name
    · rw [hn, mapLookup_insert_self]
      have hnone : dirIndexOf es e.name = none :=
        (dirIndexOf_eq_none_iff es e.name).mpr hfresh
      rw [dirIndexOf, dirIndexOfAux_append_of_none e e.name es 0 hnone]
      simp
    · rw [mapLookup_insert_ne e.name _ n hn, ih h0' hd']
      cases hcase : dirIndexOf es n with
      | some j => exact (dirIndexOfAux_append_of_some e n es 0 hcase).symm
      | none =>
        rw [dirIndexOf, dirIndexOfAux_append_of_none e n es 0 hcase]
        have hne2 : e.name ≠ n := fun hh => hn hh.symm
        simp [hne2]

theorem length_buildMap (es : List ZEntry) (h0 : [] ∉ namesOf es)
    (hd : (namesOf es).Nodup) :
    (QMicroz.buildMap es).length = es.length := by
  induction es using List.reverseRecOn with
  | nil => simp [QMicroz.buildMap, QMicroz.buildMapAux]
  | append_singleton es e ih =>
    have hnames : namesOf (es ++ [e]) = namesOf es ++ [e.name] := by simp [namesOf]
    rw [hnames] at h0 hd
    have hne : e.name ≠ [] := by
      intro hh
      exact h0 (by simp [hh])
    have h0' : [] ∉ namesOf es := fun hh => h0 (by simp [hh])
    have hd' : (namesOf es).Nodup := hd.of_append_left
    have hfresh : e.name ∉ namesOf es := by
      intro hh
      rcases List.nodup_append.mp hd with ⟨_, _, hdisj⟩
      exact hdisj hh (by simp)
    have hnone : mapLookup (QMicroz.buildMap es) e.name = none := by
      rw [mapLookup_buildMap es h0' hd', dirIndexOf_eq_none_iff]
      exact hfresh
    rw [buildMap_append es e hne, length_mapInsert_fresh _ _ _ hnone, ih h0' hd']
    simp

theorem sorted_buildMapAux :
    ∀ (es : List ZEntry) (i : Int) (m : ZMap), SortedKeys m →
      SortedKeys (QMicroz.buildMapAux i es m)
  | [], _, _, h => h
  | e :: t, i, m, h => by
    rw [QMicroz.buildMapAux]
    by_cases he : e.name = []
    · simp only [he, if_true]
      exact sorted_buildMapAux t (i + 1) m h
    · simp only [he, if_false, if_neg he]
      exact sorted_buildMapAux t (i + 1) _ (mapInsert_sorted _ _ _ h)

theorem sorted_buildMap (es : List ZEntry) : SortedKeys (QMicroz.buildMap es) :=
  sorted_buildMapAux es 0 [] (by simp [SortedKeys])

/-! ## Session write-path lemmas. -/

theorem invW_isModeWriting {q : QMicroz} {es : List ZEntry} (h : InvW q es) :
    q.isModeWriting = true := by
  simp [QMicroz.isModeWriting, h.1, zipMode]

theorem addEntry_emptyName (q : QMicroz) (d : Bytes) (m : Int) :
    q.addEntry [] d m = (false, q) := by
  simp [QMicroz.addEntry]

theorem addEntry_dup {q : QMicroz} {es : List ZEntry} (h : InvW q es) {n : Name}
    (d : Bytes) (m : Int) (hdup : n ∈ namesOf es) :
    q.addEntry n d m = (false, q) := by
  obtain ⟨ha, hm, h0, hd⟩ := h
  have hn : n ≠ [] := by
    intro he
    rw [he] at hdup
    exact h0 hdup
  have hexists : ∃ j, mapLookup q.m_zip_entries n = some j := by
    rw [hm, mapLookup_buildMap es h0 hd]
    cases hc : dirIndexOf es n with
    | none => exact absurd ((dirIndexOf_eq_none_iff es n).mp hc) (by simpa using hdup)
    | some j => exact ⟨j, rfl⟩
  obtain ⟨j, hj⟩ := hexists
  simp [QMicroz.addEntry, hn, mapContains, hj]

theorem addEntry_fresh {q : QMicroz} {es : List ZEntry} (h : InvW q es) {n : Name}
    (d : Bytes) (m : Int) (hn : n ≠ []) (hfresh : n ∉ namesOf es) :
    q.addEntry n d m =
      (true, { q with
        m_archive := some ⟨.writing, es ++ [⟨n, d, m⟩]⟩,
        m_zip_entries := QMicroz.buildMap (es ++ [⟨n, d, m⟩]) }) := by
  obtain ⟨ha, hm, h0, hd⟩ := h
  have hlook : mapLookup q.m_zip_entries n = none := by
    rw [hm, mapLookup_buildMap es h0 hd, dirIndexOf_eq_none_iff]
    exact hfresh
  have hsz : mapSize q.m_zip_entries = (es.length : Int) := by
    rw [hm, mapSize, length_buildMap es h0 hd]
  have hmap : mapInsert n (mapSize q.m_zip_entries) q.m_zip_entries =
      QMicroz.buildMap (es ++ [⟨n, d, m⟩]) := by
    rw [hsz, hm, buildMap_append es ⟨n, d, m⟩ hn]
  simp only [QMicroz.addEntry, mapContains, hlook, Option.isSome_none,
    Bool.false_eq_true, if_false, ha, hmap]
  rw [if_neg hn]
  simp

theorem invW_addEntry {q : QMicroz} {es : List ZEntry} (h : InvW q es) {n : Name}
    (d : Bytes) (m : Int) (hn : n ≠ []) (hfresh : n ∉ namesOf es) :
    InvW (q.addEntry n d m).2 (es ++ [⟨n, d, m⟩]) := by
  rw [addEntry_fresh h d m hn hfresh]
  refine ⟨rfl, rfl, ?_, ?_⟩
  · have h0 := h.2.2.1
    intro hmem
    rw [show namesOf (es ++ [⟨n, d, m⟩]) = namesOf es ++ [n] by simp [namesOf]] at hmem
    rcases List.mem_append.mp hmem with hmem | hmem
    · exact h0 hmem
    · simp at hmem
      exact hn hmem
  · have hd := h.2.2.2
    rw [show namesOf (es ++ [⟨n, d, m⟩]) = namesOf es ++ [n] by simp [namesOf]]
    rw [List.nodup_append]
    refine ⟨hd, List.nodup_singleton _, ?_⟩
    intro a ha hb
    simp at hb
    rw [hb] at ha
    exact hfresh ha

theorem addToZipBuf_eq {q : QMicroz} {es : List ZEntry} (h : InvW q es) (bf : BufFile) :
    q.addToZipBuf bf =
      q.addEntry bf.name (if isFolderName bf.name then [] else bf.data)
        (if 0 < bf.modified then bf.modified else 0) := by
  simp [QMicroz.addToZipBuf, invW_isModeWriting h]

theorem addToZipBuf_cases {q : QMicroz} {es : List ZEntry} (h : InvW q es) (bf : BufFile) :
    ((q.addToZipBuf bf).1 = false ∧ (q.addToZipBuf bf).2 = q ∧
      (bf.name = [] ∨ bf.name ∈ namesOf es)) ∨
    ((q.addToZipBuf bf).1 = true ∧ bf.name ≠ [] ∧ bf.name ∉ namesOf es ∧
      InvW (q.addToZipBuf bf).2
        (es ++ [⟨bf.name, if isFolderName bf.name then [] else bf.data,
                 if 0 < bf.modified then bf.modified else 0⟩])) := by
  rw [addToZipBuf_eq h]
  by_cases hn : bf.name = []
  · left
    rw [hn, addEntry_emptyName]
    exact ⟨rfl, rfl, Or.inl rfl⟩
  · by_cases hdup : bf.name ∈ namesOf es
    · left
      rw [addEntry_dup h _ _ hdup]
      exact ⟨rfl, rfl, Or.inr hdup⟩
    · right
      refine ⟨?_, hn, hdup, invW_addEntry h _ _ hn hdup⟩
      rw [addEntry_fresh h _ _ hn hdup]

theorem addEntry_fields (q : QMicroz) (n : Name) (d : Bytes) (m : Int) :
    (q.addEntry n d m).2.m_zip_path = q.m_zip_path ∧
    (q.addEntry n d m).2.m_output_folder = q.m_output_folder := by
  by_cases hn : n = []
  · simp [QMicroz.addEntry, hn]
  · by_cases hc : mapContains q.m_zip_entries n
    · simp [QMicroz.addEntry, hn, hc]
    · cases ha : q.m_archive with
      | none => simp [QMicroz.addEntry, hn, hc, ha]
      | some a =>
        by_cases hmode : a.mode = .writing
        · simp [QMicroz.addEntry, hn, hc, ha, hmode]
        · simp [QMicroz.addEntry, hn, hc, ha, hmode]

theorem addToZipBuf_fields (q : QMicroz) (bf : BufFile) :
    (q.addToZipBuf bf).2.m_zip_path = q.m_zip_path ∧
    (q.addToZipBuf bf).2.m_output_folder = q.m_output_folder := by
  by_cases hw : q.isModeWriting
  · simp [QMicroz.addToZipBuf, hw, addEntry_fields]
  · simp [QMicroz.addToZipBuf, hw]

theorem runBufAdds_append :
    ∀ (l1 : List BufFile) (q : QMicroz) (l2 : List BufFile),
      q.runBufAdds (l1 ++ l2) = (q.runBufAdds l1).runBufAdds l2
  | [], _, _ => rfl
  | bf :: t, q, l2 => by
    show ((q.addToZipBuf bf).2.runBufAdds (t ++ l2)) =
      (((q.addToZipBuf bf).2.runBufAdds t).runBufAdds l2)
    exact runBufAdds_append t _ l2

theorem runBufAdds_inv :
    ∀ (l : List BufFile) {q : QMicroz} {es : List ZEntry}, InvW q es →
      ∃ tl, InvW (q.runBufAdds l) (es ++ tl)
  | [], _, es, h => ⟨[], by simpa using h⟩
  | bf :: t, q, es, h => by
    show ∃ tl, InvW (QMicroz.runBufAdds (q.addToZipBuf bf).2 t) (es ++ tl)
    rcases addToZipBuf_cases h bf with ⟨_, h2, _⟩ | ⟨_, _, _, hinv⟩
    · rw [h2]
      exact runBufAdds_inv t h
    · obtain ⟨tl, htl⟩ := runBufAdds_inv t hinv
      refine ⟨[⟨bf.name, if isFolderName bf.name then [] else bf.data,
               if 0 < bf.modified then bf.modified else 0⟩] ++ tl, ?_⟩
      rw [← List.append_assoc]
      exact htl

theorem runBufAdds_path :
    ∀ (l : List BufFile) (q : QMicroz),
      (q.runBufAdds l).m_zip_path = q.m_zip_path
  | [], _ => rfl
  | bf :: t, q => by
    show (QMicroz.runBufAdds (q.addToZipBuf bf).2 t).m_zip_path = q.m_zip_path
    rw [runBufAdds_path t _, (addToZipBuf_fields q bf).1]

/-! ## Claim theorems. -/

/-- Claim C4: for a writing session whose directory does not yet hold the
entry name, adding the same buffered pair twice makes the first call
return true and raise the entry count by exactly one, while the second
call returns false and leaves the entire session state unchanged, so the
existing entry is never overwritten (first writer wins). -/
theorem C4_idempotent_reject (q : QMicroz) (es : List ZEntry) (bf : BufFile)
    (h : InvW q es) (hn : bf.name ≠ []) (hfresh : bf.name ∉ namesOf es) :
    (q.addToZipBuf bf).1 = true ∧
    (q.addToZipBuf bf).2.count = q.count + 1 ∧
    ((q.addToZipBuf bf).2.addToZipBuf bf).1 = false ∧
    ((q.addToZipBuf bf).2.addToZipBuf bf).2 = (q.addToZipBuf bf).2 := by
  rcases addToZipBuf_cases h bf with ⟨_, _, hbad⟩ | ⟨h1, _, _, hinv⟩
  · rcases hbad with hbad | hbad
    · exact absurd hbad hn
    · exact absurd hbad hfresh
  · refine ⟨h1, ?_, ?_, ?_⟩
    · rw [QMicroz.count, QMicroz.count, hinv.1, h.1]
      simp
    · rcases addToZipBuf_cases hinv bf with ⟨h2, _, _⟩ | ⟨_, _, hfr2, _⟩
      · exact h2
      · exact absurd (by simp [namesOf]) hfr2
    · rcases addToZipBuf_cases hinv bf with ⟨_, h3, _⟩ | ⟨_, _, hfr2, _⟩
      · exact h3
      · exact absurd (by simp [namesOf]) hfr2

theorem C4_idempotent_reject_witness :
    ((QMicroz.freshWriter (nm ("t.zip"))).addToZipBuf ⟨nm ("a.txt"), [1, 2], 0⟩).1 = true ∧
    ((QMicroz.freshWriter (nm ("t.zip"))).addToZipBuf ⟨nm ("a.txt"), [1, 2], 0⟩).2.count =
      (QMicroz.freshWriter (nm ("t.zip"))).count + 1 ∧
    (((QMicroz.freshWriter (nm ("t.zip"))).addToZipBuf ⟨nm ("a.txt"), [1, 2], 0⟩).2.addToZipBuf
      ⟨nm ("a.txt"), [1, 2], 0⟩).1 = false ∧
    (((QMicroz.freshWriter (nm ("t.zip"))).addToZipBuf ⟨nm ("a.txt"), [1, 2], 0⟩).2.addToZipBuf
      ⟨nm ("a.txt"), [1, 2], 0⟩).2 =
      ((QMicroz.freshWriter (nm ("t.zip"))).addToZipBuf ⟨nm ("a.txt"), [1, 2], 0⟩).2 :=
  C4_idempotent_reject (QMicroz.freshWriter (nm ("t.zip"))) [] ⟨nm ("a.txt"), [1, 2], 0⟩
    (by constructor <;> simp [QMicroz.freshWriter, QMicroz.buildMap, QMicroz.buildMapAux, namesOf])
    (by decide) (by simp [namesOf])

/-- Claim C10: with no archive attached every info accessor returns its
neutral sentinel for every integer index — count 0, empty name, zero
sizes, invalid timestamp, and neither mode flag set. -/
theorem C10_closed_neutral (q : QMicroz) (h : q.m_archive = none) (i : Int) :
    q.count = 0 ∧ q.name i = [] ∧ q.sizeCompressed i = 0 ∧
    q.sizeUncompressed i = 0 ∧ q.lastModified i = none ∧
    q.isModeReading = false ∧ q.isModeWriting = false := by
  refine ⟨?_, ?_, ?_, ?_, ?_, ?_, ?_⟩ <;>
    simp [QMicroz.count, QMicroz.name, zaFileStat, QMicroz.sizeCompressed,
      QMicroz.sizeUncompressed, QMicroz.lastModified, QMicroz.isModeReading,
      QMicroz.isModeWriting, zipMode, h]

theorem C10_closed_neutral_witness :
    emptySession.count = 0 ∧ emptySession.name (-5) = [] ∧
    emptySession.sizeCompressed (-5) = 0 ∧ emptySession.sizeUncompressed (-5) = 0 ∧
    emptySession.lastModified (-5) = none ∧
    emptySession.isModeReading = false ∧ emptySession.isModeWriting = false :=
  C10_closed_neutral emptySession rfl (-5)

/-- Claim C2 (failing input): one buffered item added through
addToZip(BufList) from a fresh writer ends up recorded in the directory
with index 1, although it sits at container index 0 and the directory
size at the moment of its insertion was 0 — addToZip(BufList) re-assigns
m_zip_entries[key] = size() after addEntry has already recorded the
entry, breaking the index invariant the claim states. -/
theorem C2_buflist_index_bug :
    ((QMicroz.freshWriter (nm ("t.zip"))).addToZipList [(nm ("a.txt"), [104, 105])]).1 = true ∧
    mapLookup ((QMicroz.freshWriter (nm ("t.zip"))).addToZipList
      [(nm ("a.txt"), [104, 105])]).2.m_zip_entries (nm ("a.txt")) = some 1 ∧
    ((QMicroz.freshWriter (nm ("t.zip"))).addToZipList [(nm ("a.txt"), [104, 105])]).2.m_archive =
      some ⟨.writing, [⟨nm ("a.txt"), [104, 105], 0⟩]⟩ ∧
    dirIndexOf [⟨nm ("a.txt"), [104, 105], 0⟩] (nm ("a.txt")) = some 0 := by
  refine ⟨?_, ?_, ?_, ?_⟩ <;> decide

/-! ## Path-join lemmas (claim C9). -/

theorem lastIsSep_concat : ∀ (as : Name) (c : Char), lastIsSep (as ++ [c]) = isSepChar c
  | [], _ => rfl
  | [_], _ => rfl
  | _ :: b :: t, c => lastIsSep_concat (b :: t) c

theorem dropWhile_of_takeWhile_nil {p : Char → Bool} :
    ∀ l : Name, l.takeWhile p = [] → l.dropWhile p = l
  | [], _ => rfl
  | a :: t, h => by
    simp only [List.takeWhile_cons, List.dropWhile_cons] at h ⊢
    by_cases hp : p a
    · simp [hp] at h
    · simp [hp]

theorem stripTrail_of_last_false (a : Name) (h : lastIsSep a = false) :
    stripTrailSeps a = a := by
  rcases List.eq_nil_or_concat a with rfl | ⟨as, c, hae⟩
  · rfl
  · rw [List.concat_eq_append] at hae
    subst hae
    rw [lastIsSep_concat] at h
    rw [stripTrailSeps, List.reverse_append]
    simp [List.dropWhile_cons, h]

theorem takeWhile_nil_of_cons_le_one {p : Char → Bool} {c : Char} {l : Name}
    (hc : p c = true) (h : ((c :: l).takeWhile p).length ≤ 1) :
    l.takeWhile p = [] := by
  rw [List.takeWhile_cons, if_pos hc, List.length_cons] at h
  exact List.eq_nil_of_length_eq_zero (by omega)

theorem stripLead_of_head_false (r : Name) (h : headIsSep r = false) :
    stripLeadSeps r = r := by
  cases r with
  | nil => rfl
  | cons c t =>
    rw [headIsSep] at h
    simp [stripLeadSeps, List.dropWhile_cons, h]

/-- Claim C9 (counterexample): the legacy tools.cpp joinPath checks only
the base side, so when only the relative side supplies the boundary it
still inserts a separator and doubles it: join("a", "/b") = "a//b". -/
theorem C9_counterexample :
    headIsSep (nm ("/b")) = true ∧ lastIsSep (nm ("a")) = false ∧
    joinPathLegacy (nm ("a")) (nm ("/b")) = nm ("a//b") := by
  refine ⟨?_, ?_, ?_⟩ <;> decide

/-- Claim C9 (amended): the current qmztools.cpp joinPath concatenates
with exactly one separator character at the junction whenever each input
carries at most one boundary separator; the legacy tools.cpp joinPath
agrees with it only when the relative side supplies no boundary (and
doubles the separator otherwise, see the counterexample).  Both
functions are total Lean functions, hence pure and total. -/
theorem C9_joinPath_amended (a r : Name) :
    (trailSepCount a ≤ 1 → leadSepCount r ≤ 1 →
      ∃ c, isSepChar c = true ∧
        joinPath a r = stripTrailSeps a ++ [c] ++ stripLeadSeps r) ∧
    (headIsSep r = false → joinPathLegacy a r = joinPath a r) := by
  constructor
  · intro hta hlr
    by_cases ha : lastIsSep a
    · rcases List.eq_nil_or_concat a with rfl | ⟨as, c0, hae⟩
      · simp [lastIsSep] at ha
      · rw [List.concat_eq_append] at hae
        subst hae
        rw [lastIsSep_concat] at ha
        have htw : as.reverse.takeWhile isSepChar = [] := by
          have h2 : (((as ++ [c0]).reverse).takeWhile isSepChar).length ≤ 1 := hta
          rw [List.reverse_append] at h2
          simp only [List.reverse_singleton, List.singleton_append] at h2
          exact takeWhile_nil_of_cons_le_one ha h2
        have hstrip : stripTrailSeps (as ++ [c0]) = as := by
          rw [stripTrailSeps, List.reverse_append]
          simp [List.dropWhile_cons, ha, dropWhile_of_takeWhile_nil _ htw]
        by_cases hr : headIsSep r
        · cases r with
          | nil => simp [headIsSep] at hr
          | cons c1 r1 =>
            rw [headIsSep] at hr
            have hlw : r1.takeWhile isSepChar = [] := by
              have h2 : (((c1 :: r1)).takeWhile isSepChar).length ≤ 1 := hlr
              exact takeWhile_nil_of_cons_le_one hr h2
            have hlstrip : stripLeadSeps (c1 :: r1) = r1 := by
              simp [stripLeadSeps, List.dropWhile_cons, hr,
                dropWhile_of_takeWhile_nil _ hlw]
            refine ⟨c1, hr, ?_⟩
            rw [joinPath]
            rw [if_pos (by simp [lastIsSep_concat, ha, headIsSep, hr])]
            rw [hstrip, hlstrip, List.dropLast_concat]
            simp
        · refine ⟨c0, ha, ?_⟩
          rw [joinPath]
          rw [if_neg (by simp [hr]), if_pos (by simp [lastIsSep_concat, ha])]
          rw [hstrip, stripLead_of_head_false r (by simpa using hr)]
    · have hstrip : stripTrailSeps a = a :=
        stripTrail_of_last_false a (by simpa using ha)
      by_cases hr : headIsSep r
      · cases r with
        | nil => simp [headIsSep] at hr
        | cons c1 r1 =>
          rw [headIsSep] at hr
          have hlw : r1.takeWhile isSepChar = [] := by
            have h2 : (((c1 :: r1)).takeWhile isSepChar).length ≤ 1 := hlr
            exact takeWhile_nil_of_cons_le_one hr h2
          have hlstrip : stripLeadSeps (c1 :: r1) = r1 := by
            simp [stripLeadSeps, List.dropWhile_cons, hr,
              dropWhile_of_takeWhile_nil _ hlw]
          refine ⟨c1, hr, ?_⟩
          rw [joinPath]
          rw [if_neg (by simp [ha]), if_pos (by simp [headIsSep, hr])]
          rw [hstrip, hlstrip]
          simp
      · refine ⟨sepChar, by decide, ?_⟩
        rw [joinPath]
        rw [if_neg (by simp [ha, hr]), if_neg (by simp [ha, hr])]
        rw [hstrip, stripLead_of_head_false r (by simpa using hr)]
  · intro hr
    by_cases ha : lastIsSep a <;>
      simp [joinPath, joinPathLegacy, endsWithSlash, hr, ha]

theorem C9_joinPath_amended_witness :
    (∃ c, isSepChar c = true ∧
      joinPath (nm ("a")) (nm ("b")) =
        stripTrailSeps (nm ("a")) ++ [c] ++ stripLeadSeps (nm ("b"))) ∧
    joinPathLegacy (nm ("a")) (nm ("b")) = joinPath (nm ("a")) (nm ("b")) :=
  ⟨(C9_joinPath_amended (nm ("a")) (nm ("b"))).1 (by decide) (by decide),
   (C9_joinPath_amended (nm ("a")) (nm ("b"))).2 (by decide)⟩

/-! ## Session open/close lemmas (claims C5, C6). -/

theorem isZipFile_iff (fs : FileSys) (p : Name) :
    isZipFile fs p = true ↔ ∃ es, fs p = some (.zipArchive es) := by
  cases h : fs p with
  | none => simp [isZipFile, h]
  | some c => cases c <;> simp [isZipFile, h]

theorem closeArchive_snd_archive (fs : FileSys) (q : QMicroz) :
    (QMicroz.closeArchive fs q).2.m_archive = none := by
  cases hq : q.m_archive <;> simp [QMicroz.closeArchive, hq, emptySession]

/-- Claim C6: open-for-read (setZipFile in ModeRead) succeeds exactly when
the target (as left by closing the prior session) passes the magic probe;
on success the resulting session state is completely determined — prior
session released, reader attached over the container entries, directory
rebuilt from them, output folder defaulted to the path's parent — and a
failed open leaves no attached handle. -/
theorem C6_open_for_read (fs : FileSys) (q : QMicroz) (p : Name) :
    ((QMicroz.setZipFile fs q p .modeRead).1 = true ↔
      isZipFile (QMicroz.closeArchive fs q).1 p = true) ∧
    (∀ es, (QMicroz.closeArchive fs q).1 p = some (.zipArchive es) →
      (QMicroz.setZipFile fs q p .modeRead).2.1 =
        { m_archive := some ⟨.reading, es⟩, m_zip_path := p,
          m_output_folder := absolutePathOf p,
          m_zip_entries := QMicroz.buildMap es }) ∧
    ((QMicroz.setZipFile fs q p .modeRead).1 = false →
      (QMicroz.setZipFile fs q p .modeRead).2.1.m_archive = none) := by
  refine ⟨?_, ?_, ?_⟩
  · by_cases hz : isZipFile (QMicroz.closeArchive fs q).1 p = true
    · obtain ⟨es, hes⟩ := (isZipFile_iff _ _).mp hz
      simp [QMicroz.setZipFile, hz, hes]
    · simp [QMicroz.setZipFile, hz]
  · intro es hes
    have hz : isZipFile (QMicroz.closeArchive fs q).1 p = true :=
      (isZipFile_iff _ _).mpr ⟨es, hes⟩
    simp [QMicroz.setZipFile, hz, hes, QMicroz.updateZipContents]
  · intro hfail
    by_cases hz : isZipFile (QMicroz.closeArchive fs q).1 p = true
    · obtain ⟨es, hes⟩ := (isZipFile_iff _ _).mp hz
      simp [QMicroz.setZipFile, hz, hes] at hfail
    · simp [QMicroz.setZipFile, hz, closeArchive_snd_archive]

theorem C6_open_for_read_witness :
    (QMicroz.setZipFile
        (fun x => if x = nm ("d/t.zip") then
          some (.zipArchive [⟨nm ("a.txt"), [1], 0⟩]) else none)
        emptySession (nm ("d/t.zip")) .modeRead).2.1 =
      { m_archive := some ⟨.reading, [⟨nm ("a.txt"), [1], 0⟩]⟩,
        m_zip_path := nm ("d/t.zip"),
        m_output_folder := absolutePathOf (nm ("d/t.zip")),
        m_zip_entries := QMicroz.buildMap [⟨nm ("a.txt"), [1], 0⟩] } :=
  (C6_open_for_read
      (fun x => if x = nm ("d/t.zip") then
        some (.zipArchive [⟨nm ("a.txt"), [1], 0⟩]) else none)
      emptySession (nm ("d/t.zip"))).2.1
    [⟨nm ("a.txt"), [1], 0⟩] (by decide)

/-- Claim C5: setZipFile policy selection on a closed session — Auto:
writer when the target is absent, reader (over the stored entries) when
it passes the probe, failure otherwise; ForceRead: reader only on a
probed container, failure otherwise; ForceWrite: always a fresh writer,
truncating the target on disk.  And scenario C: a nonexistent path opened
under Auto is Writing; after one buffered file and a close, reopening
under Auto is Reading with count 1. -/
theorem C5_open_policy (fs : FileSys) (q : QMicroz) (p : Name)
    (hq : q.m_archive = none) :
    ((fs p = none →
        (QMicroz.setZipFile fs q p .modeAuto).1 = true ∧
        (QMicroz.setZipFile fs q p .modeAuto).2.1.m_archive = some ⟨.writing, []⟩) ∧
     (∀ es, fs p = some (.zipArchive es) →
        (QMicroz.setZipFile fs q p .modeAuto).1 = true ∧
        (QMicroz.setZipFile fs q p .modeAuto).2.1.m_archive = some ⟨.reading, es⟩) ∧
     (∀ bs, fs p = some (.rawBytes bs) →
        (QMicroz.setZipFile fs q p .modeAuto).1 = false) ∧
     (∀ es, fs p = some (.zipArchive es) →
        (QMicroz.setZipFile fs q p .modeRead).1 = true ∧
        (QMicroz.setZipFile fs q p .modeRead).2.1.m_archive = some ⟨.reading, es⟩) ∧
     ((∀ es, fs p ≠ some (.zipArchive es)) →
        (QMicroz.setZipFile fs q p .modeRead).1 = false) ∧
     ((QMicroz.setZipFile fs q p .modeWrite).1 = true ∧
      (QMicroz.setZipFile fs q p .modeWrite).2.1.m_archive = some ⟨.writing, []⟩ ∧
      (QMicroz.setZipFile fs q p .modeWrite).2.2 p = some (.rawBytes []))) ∧
    ((QMicroz.setZipFile (fun _ => none) emptySession (nm ("t.zip")) .modeAuto).1 = true ∧
     (QMicroz.setZipFile (fun _ => none) emptySession
        (nm ("t.zip")) .modeAuto).2.1.isModeWriting = true ∧
     ((QMicroz.setZipFile (fun _ => none) emptySession
        (nm ("t.zip")) .modeAuto).2.1.addToZipBuf ⟨nm ("a.txt"), [104], 0⟩).1 = true ∧
     (QMicroz.setZipFile
        (QMicroz.closeArchive
          (QMicroz.setZipFile (fun _ => none) emptySession (nm ("t.zip")) .modeAuto).2.2
          ((QMicroz.setZipFile (fun _ => none) emptySession
            (nm ("t.zip")) .modeAuto).2.1.addToZipBuf ⟨nm ("a.txt"), [104], 0⟩).2).1
        (QMicroz.closeArchive
          (QMicroz.setZipFile (fun _ => none) emptySession (nm ("t.zip")) .modeAuto).2.2
          ((QMicroz.setZipFile (fun _ => none) emptySession
            (nm ("t.zip")) .modeAuto).2.1.addToZipBuf ⟨nm ("a.txt"), [104], 0⟩).2).2
        (nm ("t.zip")) .modeAuto).1 = true ∧
     (QMicroz.setZipFile
        (QMicroz.closeArchive
          (QMicroz.setZipFile (fun _ => none) emptySession (nm ("t.zip")) .modeAuto).2.2
          ((QMicroz.setZipFile (fun _ => none) emptySession
            (nm ("t.zip")) .modeAuto).2.1.addToZipBuf ⟨nm ("a.txt"), [104], 0⟩).2).1
        (QMicroz.closeArchive
          (QMicroz.setZipFile (fun _ => none) emptySession (nm ("t.zip")) .modeAuto).2.2
          ((QMicroz.setZipFile (fun _ => none) emptySession
            (nm ("t.zip")) .modeAuto).2.1.addToZipBuf ⟨nm ("a.txt"), [104], 0⟩).2).2
        (nm ("t.zip")) .modeAuto).2.1.isModeReading = true ∧
     (QMicroz.setZipFile
        (QMicroz.closeArchive
          (QMicroz.setZipFile (fun _ => none) emptySession (nm ("t.zip")) .modeAuto).2.2
          ((QMicroz.setZipFile (fun _ => none) emptySession
            (nm ("t.zip")) .modeAuto).2.1.addToZipBuf ⟨nm ("a.txt"), [104], 0⟩).2).1
        (QMicroz.closeArchive
          (QMicroz.setZipFile (fun _ => none) emptySession (nm ("t.zip")) .modeAuto).2.2
          ((QMicroz.setZipFile (fun _ => none) emptySession
            (nm ("t.zip")) .modeAuto).2.1.addToZipBuf ⟨nm ("a.txt"), [104], 0⟩).2).2
        (nm ("t.zip")) .modeAuto).2.1.count = 1) := by
  have hclose : QMicroz.closeArchive fs q = (fs, q) := by
    simp [QMicroz.closeArchive, hq]
  constructor
  · refine ⟨?_, ?_, ?_, ?_, ?_, ?_⟩
    · intro hfs
      constructor <;> simp [QMicroz.setZipFile, hclose, fsExists, hfs]
    · intro es hfs
      have hex : fsExists fs p = true := by simp [fsExists, hfs]
      have hz : isZipFile fs p = true := (isZipFile_iff fs p).mpr ⟨es, hfs⟩
      constructor <;> simp [QMicroz.setZipFile, hclose, hex, hz, hfs]
    · intro bs hfs
      have hex : fsExists fs p = true := by simp [fsExists, hfs]
      have hz : isZipFile fs p = false := by
        rw [Bool.eq_false_iff]
        intro hc
        obtain ⟨es, hes⟩ := (isZipFile_iff fs p).mp hc
        rw [hfs] at hes
        exact absurd hes (by simp)
      simp [QMicroz.setZipFile, hclose, hex, hz]
    · intro es hfs
      have hz : isZipFile fs p = true := (isZipFile_iff fs p).mpr ⟨es, hfs⟩
      constructor <;> simp [QMicroz.setZipFile, hclose, hz, hfs]
    · intro hno
      have hz : isZipFile fs p = false := by
        rw [Bool.eq_false_iff]
        intro hc
        obtain ⟨es, hes⟩ := (isZipFile_iff fs p).mp hc
        exact hno es hes
      simp [QMicroz.setZipFile, hclose, hz]
    · refine ⟨?_, ?_, ?_⟩ <;> simp [QMicroz.setZipFile, hclose, fsWrite]
  · refine ⟨?_, ?_, ?_, ?_, ?_, ?_⟩ <;> decide

theorem C5_open_policy_witness :
    (QMicroz.setZipFile (fun _ => none) emptySession (nm ("w.zip")) .modeAuto).1 = true ∧
    (QMicroz.setZipFile (fun _ => none) emptySession
      (nm ("w.zip")) .modeAuto).2.1.m_archive = some ⟨.writing, []⟩ :=
  ((C5_open_policy (fun _ => none) emptySession (nm ("w.zip")) rfl).1).1 rfl

/-! ## findIndex lemmas (claim C3). -/

theorem findIndexAux_neg (query : Name) :
    ∀ m : ZMap, (∀ kv ∈ m, ¬(isFileName kv.1 = true ∧ query = baseName kv.1)) →
      QMicroz.findIndexAux m query = -1
  | [], _ => rfl
  | (q, w) :: t, h => by
    have hq := h (q, w) (List.mem_cons_self _ _)
    rw [QMicroz.findIndexAux]
    rw [if_neg (by
      simp only [Bool.and_eq_true, decide_eq_true_eq]
      exact fun hc => hq hc)]
    exact findIndexAux_neg query t (fun kv hkv => h kv (List.mem_cons_of_mem _ hkv))

theorem findIndexAux_found (query : Name) :
    ∀ m : ZMap, SortedKeys m → ∀ k0 v0, (k0, v0) ∈ m → isFileName k0 = true →
      query = baseName k0 →
      ∃ k v, (k, v) ∈ m ∧ isFileName k = true ∧ query = baseName k ∧
        QMicroz.findIndexAux m query = v ∧
        ∀ kv ∈ m, isFileName kv.1 = true → query = baseName kv.1 →
          nameLtB kv.1 k = false
  | [], _, k0, v0, hm, _, _ => absurd hm (by simp)
  | (q, w) :: t, hs, k0, v0, hm, hf0, hb0 => by
    rw [SortedKeys, List.pairwise_cons] at hs
    by_cases hq : isFileName q = true ∧ query = baseName q
    · refine ⟨q, w, List.mem_cons_self _ _, hq.1, hq.2, ?_, ?_⟩
      · rw [QMicroz.findIndexAux, if_pos (by
          simp only [Bool.and_eq_true, decide_eq_true_eq]
          exact hq)]
      · intro kv hkv _ _
        rcases List.mem_cons.mp hkv with hkv | hkv
        · rw [hkv]
          exact nameLt_irrefl q
        · exact nameLt_asymm _ _ (hs.1 kv hkv)
    · have hm2 : (k0, v0) ∈ t := by
        rcases List.mem_cons.mp hm with hm | hm
        · exact absurd ⟨by rw [show k0 = q by injection hm] at hf0; exact hf0,
            by rw [show k0 = q by injection hm] at hb0; exact hb0⟩ hq
        · exact hm
      obtain ⟨k, v, hkm, hkf, hkb, hkr, hkmin⟩ :=
        findIndexAux_found query t hs.2 k0 v0 hm2 hf0 hb0
      refine ⟨k, v, List.mem_cons_of_mem _ hkm, hkf, hkb, ?_, ?_⟩
      · rw [QMicroz.findIndexAux, if_neg (by
          simp only [Bool.and_eq_true, decide_eq_true_eq]
          exact fun hc => hq hc)]
        exact hkr
      · intro kv hkv hvf hvb
        rcases List.mem_cons.mp hkv with hkv | hkv
        · exact absurd ⟨by rw [hkv] at hvf; exact hvf, by rw [hkv] at hvb; exact hvb⟩ hq
        · exact hkmin kv hkv hvf hvb

theorem mem_key_buildMap (es : List ZEntry) (h0 : [] ∉ namesOf es)
    (hd : (namesOf es).Nodup) (n : Name) :
    n ∈ namesOf es ↔ ∃ v, (n, v) ∈ QMicroz.buildMap es := by
  constructor
  · intro hmem
    cases hc : dirIndexOf es n with
    | none => exact absurd ((dirIndexOf_eq_none_iff es n).mp hc) (by simpa using hmem)
    | some j =>
      refine ⟨j, mem_of_mapLookup ?_⟩
      rw [mapLookup_buildMap es h0 hd, hc]
  · rintro ⟨v, hv⟩
    have hl : mapLookup (QMicroz.buildMap es) n = some v :=
      mapLookup_of_mem (sorted_buildMap es) hv
    rw [mapLookup_buildMap es h0 hd] at hl
    by_contra hnot
    rw [(dirIndexOf_eq_none_iff es n).mpr hnot] at hl
    exact absurd hl (by simp)

/-- Claim C3 (counterexample): a reading session whose container holds
"z/f.txt" at index 0 and "a/f.txt" at index 1; the query "f.txt" has no
separator and no exact match, the first-inserted matching file entry is
at index 0, yet findIndex returns 1 because the directory QMap iterates
in key order. -/
theorem C3_counterexample :
    isFileName ((⟨some ⟨.reading, [⟨nm ("z/f.txt"), [1], 0⟩, ⟨nm ("a/f.txt"), [2], 0⟩]⟩,
        nm ("p.zip"), [],
        QMicroz.buildMap [⟨nm ("z/f.txt"), [1], 0⟩, ⟨nm ("a/f.txt"), [2], 0⟩]⟩ :
        QMicroz).name 0) = true ∧
    baseName ((⟨some ⟨.reading, [⟨nm ("z/f.txt"), [1], 0⟩, ⟨nm ("a/f.txt"), [2], 0⟩]⟩,
        nm ("p.zip"), [],
        QMicroz.buildMap [⟨nm ("z/f.txt"), [1], 0⟩, ⟨nm ("a/f.txt"), [2], 0⟩]⟩ :
        QMicroz).name 0) = nm ("f.txt") ∧
    (nm ("f.txt")).contains sepChar = false ∧
    mapLookup (QMicroz.buildMap [⟨nm ("z/f.txt"), [1], 0⟩, ⟨nm ("a/f.txt"), [2], 0⟩])
      (nm ("f.txt")) = none ∧
    (⟨some ⟨.reading, [⟨nm ("z/f.txt"), [1], 0⟩, ⟨nm ("a/f.txt"), [2], 0⟩]⟩,
        nm ("p.zip"), [],
        QMicroz.buildMap [⟨nm ("z/f.txt"), [1], 0⟩, ⟨nm ("a/f.txt"), [2], 0⟩]⟩ :
        QMicroz).findIndex (nm ("f.txt")) = 1 := by
  refine ⟨?_, ?_, ?_, ?_, ?_⟩ <;> decide

/-- Claim C3 (amended): for a consistent reading session, an exact
directory match always wins; a query containing a separator with no
exact match yields -1 without any fallback; a separator-free query with
no exact match yields -1 when no file entry's basename matches, and
otherwise the container index of the matching file entry whose full name
is least in QMap key order — not the first-inserted one. -/
theorem C3_findIndex_amended (q : QMicroz) (es : List ZEntry) (h : InvR q es)
    (query : Name) :
    (∀ i, dirIndexOf es query = some i → q.findIndex query = i) ∧
    (dirIndexOf es query = none → query.contains sepChar = true →
      q.findIndex query = -1) ∧
    (dirIndexOf es query = none → query.contains sepChar = false →
      ((∀ n ∈ namesOf es, ¬(isFileName n = true ∧ query = baseName n)) →
        q.findIndex query = -1) ∧
      (∀ n0 ∈ namesOf es, isFileName n0 = true → query = baseName n0 →
        ∃ k i, k ∈ namesOf es ∧ isFileName k = true ∧ query = baseName k ∧
          dirIndexOf es k = some i ∧ q.findIndex query = i ∧
          ∀ n ∈ namesOf es, isFileName n = true → query = baseName n →
            nameLtB n k = false)) := by
  obtain ⟨ha, hm, h0, hd⟩ := h
  refine ⟨?_, ?_, ?_⟩
  · intro i hi
    rw [QMicroz.findIndex, hm, mapLookup_buildMap es h0 hd, hi]
  · intro hnone hsep
    rw [QMicroz.findIndex, hm, mapLookup_buildMap es h0 hd, hnone, hsep]
    simp
  · intro hnone hsep
    constructor
    · intro hno
      rw [QMicroz.findIndex, hm, mapLookup_buildMap es h0 hd, hnone, hsep]
      simp only [Bool.not_false, if_true]
      refine findIndexAux_neg query _ ?_
      intro kv hkv hc
      have hkey : kv.1 ∈ namesOf es := by
        rw [mem_key_buildMap es h0 hd]
        exact ⟨kv.2, by simpa using hkv⟩
      exact hno kv.1 hkey hc
    · intro n0 hn0 hf0 hb0
      obtain ⟨v0, hv0⟩ := (mem_key_buildMap es h0 hd n0).mp hn0
      obtain ⟨k, v, hkm, hkf, hkb, hkr, hkmin⟩ :=
        findIndexAux_found query (QMicroz.buildMap es) (sorted_buildMap es)
          n0 v0 hv0 hf0 hb0
      have hkey : k ∈ namesOf es := by
        rw [mem_key_buildMap es h0 hd]
        exact ⟨v, hkm⟩
      have hdir : dirIndexOf es k = some v := by
        rw [← mapLookup_buildMap es h0 hd]
        exact mapLookup_of_mem (sorted_buildMap es) hkm
      refine ⟨k, v, hkey, hkf, hkb, hdir, ?_, ?_⟩
      · rw [QMicroz.findIndex, hm, mapLookup_buildMap es h0 hd, hnone, hsep]
        simpa using hkr
      · intro n hn hnf hnb
        obtain ⟨vn, hvn⟩ := (mem_key_buildMap es h0 hd n).mp hn
        exact hkmin (n, vn) hvn hnf hnb

theorem C3_findIndex_amended_witness :
    (⟨some ⟨.reading, [⟨nm ("a/f.txt"), [2], 0⟩]⟩, nm ("p.zip"), [],
      QMicroz.buildMap [⟨nm ("a/f.txt"), [2], 0⟩]⟩ : QMicroz).findIndex
        (nm ("a/f.txt")) = 0 :=
  (C3_findIndex_amended _ [⟨nm ("a/f.txt"), [2], 0⟩]
      ⟨rfl, rfl, by decide, by decide⟩ (nm ("a/f.txt"))).1 0 (by decide)

/-! ## Round-trip lemmas (claim C1). -/

theorem dirIndexOfAux_prefix_cons (e : ZEntry) (tl : List ZEntry) :
    ∀ (esP : List ZEntry) (i : Int), e.name ∉ namesOf esP →
      dirIndexOfAux i (esP ++ e :: tl) e.name = some (i + (esP.length : Int))
  | [], i, _ => by simp [dirIndexOfAux]
  | x :: t, i, h => by
    have hx : x.name ≠ e.name := by
      intro hh
      exact h (by simp [namesOf, hh])
    have hrec : e.name ∉ namesOf t := by
      intro hh
      exact h (by simp [namesOf] at hh ⊢; exact Or.inr hh)
    show (if x.name = e.name then some i
          else dirIndexOfAux (i + 1) (t ++ e :: tl) e.name) =
      some (i + (((x :: t).length : Nat) : Int))
    rw [if_neg hx, dirIndexOfAux_prefix_cons e tl t (i + 1) hrec]
    congr 1
    push_cast [List.length_cons]
    ring

theorem get_append_cons :
    ∀ (esP : List ZEntry) (e : ZEntry) (tl : List ZEntry),
      (esP ++ e :: tl).get? esP.length = some e
  | [], _, _ => rfl
  | _ :: t, e, tl => get_append_cons t e tl

theorem extractData_at {q : QMicroz} {es : List ZEntry}
    (hq : q.m_archive = some ⟨.reading, es⟩) (k : Nat) (e : ZEntry)
    (hk : es.get? k = some e) : q.extractData (k : Int) = e.data := by
  have hr : q.isModeReading = true := by simp [QMicroz.isModeReading, hq, zipMode]
  rw [QMicroz.extractData, QMicroz.extractDataRef]
  simp [hr, hq, ← List.get?_eq_getElem?, hk]

/-- Claim C1 (counterexample): a folder-named BufFile carrying payload
bytes is successfully added (returns true), but its payload is discarded
at write time; after close and reopen the extraction returns empty
bytes, not the original payload. -/
theorem C1_counterexample :
    ((QMicroz.freshWriter (nm ("t.zip"))).addToZipBuf ⟨nm ("d/"), [7], 0⟩).1 = true ∧
    (closeAndReopen (fun _ => none) (nm ("t.zip"))
      ((QMicroz.freshWriter (nm ("t.zip"))).runBufAdds
        [⟨nm ("d/"), [7], 0⟩])).2.1.extractData
      ((closeAndReopen (fun _ => none) (nm ("t.zip"))
        ((QMicroz.freshWriter (nm ("t.zip"))).runBufAdds
          [⟨nm ("d/"), [7], 0⟩])).2.1.findIndex (nm ("d/"))) = [] ∧
    ([] : Bytes) ≠ [7] := by
  refine ⟨?_, ?_, ?_⟩ <;> decide

/-- Claim C1 (amended to file entries): every buffered file (non-folder
name) successfully added at any point of a fresh write session
round-trips — after closing the archive and reopening it for reading,
extractData(findIndex(name)) is byte-for-byte the original payload.
Folder-named buffers drop their payload by design (counterexample). -/
theorem C1_roundtrip_files (p : Name) (fs : FileSys) (pre post : List BufFile)
    (bf : BufFile)
    (hsucc : (((QMicroz.freshWriter p).runBufAdds pre).addToZipBuf bf).1 = true)
    (hfile : isFileName bf.name = true) :
    (closeAndReopen fs p ((QMicroz.freshWriter p).runBufAdds (pre ++ bf :: post))).1 =
      true ∧
    (closeAndReopen fs p
        ((QMicroz.freshWriter p).runBufAdds (pre ++ bf :: post))).2.1.extractData
      ((closeAndReopen fs p
        ((QMicroz.freshWriter p).runBufAdds (pre ++ bf :: post))).2.1.findIndex
        bf.name) = bf.data := by
  have hw0 : InvW (QMicroz.freshWriter p) [] :=
    ⟨rfl, rfl, by simp [namesOf], by simp [namesOf]⟩
  obtain ⟨esP, hP⟩ := runBufAdds_inv pre hw0
  rw [List.nil_append] at hP
  rcases addToZipBuf_cases hP bf with ⟨hf, _, _⟩ | ⟨_, hn, hfresh, hinv⟩
  · rw [hf] at hsucc
    exact absurd hsucc (by simp)
  · have hnotfold : isFolderName bf.name = false := by
      simp only [isFileName, Bool.and_eq_true, Bool.not_eq_true'] at hfile
      simpa [isFolderName] using hfile.2
    simp only [hnotfold, Bool.false_eq_true, if_false] at hinv
    obtain ⟨tl, hF⟩ := runBufAdds_inv post hinv
    rw [show esP ++ [(⟨bf.name, bf.data,
        if 0 < bf.modified then bf.modified else 0⟩ : ZEntry)] ++ tl =
      esP ++ (⟨bf.name, bf.data, if 0 < bf.modified then bf.modified else 0⟩ : ZEntry)
        :: tl by simp] at hF
    have hsplit : (QMicroz.freshWriter p).runBufAdds (pre ++ bf :: post) =
        ((((QMicroz.freshWriter p).runBufAdds pre).addToZipBuf bf).2).runBufAdds post := by
      rw [runBufAdds_append pre (QMicroz.freshWriter p) (bf :: post)]
      rfl
    have hFa : ((QMicroz.freshWriter p).runBufAdds (pre ++ bf :: post)).m_archive =
        some ⟨.writing, esP ++ (⟨bf.name, bf.data,
          if 0 < bf.modified then bf.modified else 0⟩ : ZEntry) :: tl⟩ := by
      rw [hsplit]
      exact hF.1
    have hpath : ((QMicroz.freshWriter p).runBufAdds (pre ++ bf :: post)).m_zip_path =
        p := by
      rw [runBufAdds_path]
      rfl
    have hro : closeAndReopen fs p
        ((QMicroz.freshWriter p).runBufAdds (pre ++ bf :: post)) =
        (true,
          ⟨some ⟨.reading, esP ++ (⟨bf.name, bf.data,
              if 0 < bf.modified then bf.modified else 0⟩ : ZEntry) :: tl⟩, p,
            absolutePathOf p,
            QMicroz.buildMap (esP ++ (⟨bf.name, bf.data,
              if 0 < bf.modified then bf.modified else 0⟩ : ZEntry) :: tl)⟩,
          fsWrite fs p (.zipArchive (esP ++ (⟨bf.name, bf.data,
            if 0 < bf.modified then bf.modified else 0⟩ : ZEntry) :: tl))) := by
      have hc : QMicroz.closeArchive fs
          ((QMicroz.freshWriter p).runBufAdds (pre ++ bf :: post)) =
          (fsWrite fs p (.zipArchive (esP ++ (⟨bf.name, bf.data,
            if 0 < bf.modified then bf.modified else 0⟩ : ZEntry) :: tl)),
            emptySession) := by
        simp [QMicroz.closeArchive, hFa, hpath]
      rw [closeAndReopen, hc]
      simp [QMicroz.setZipFile, QMicroz.closeArchive, emptySession, isZipFile, fsWrite,
        QMicroz.updateZipContents]
    rw [hro]
    refine ⟨rfl, ?_⟩
    have h0F := hF.2.2.1
    have hdF := hF.2.2.2
    have hfind : mapLookup (QMicroz.buildMap (esP ++ (⟨bf.name, bf.data,
        if 0 < bf.modified then bf.modified else 0⟩ : ZEntry) :: tl)) bf.name =
        some (esP.length : Int) := by
      rw [mapLookup_buildMap _ h0F hdF, dirIndexOf,
        dirIndexOfAux_prefix_cons _ tl esP 0 hfresh]
      norm_num
    have hfi : (⟨some ⟨.reading, esP ++ (⟨bf.name, bf.data,
        if 0 < bf.modified then bf.modified else 0⟩ : ZEntry) :: tl⟩, p,
        absolutePathOf p,
        QMicroz.buildMap (esP ++ (⟨bf.name, bf.data,
          if 0 < bf.modified then bf.modified else 0⟩ : ZEntry) :: tl)⟩ :
        QMicroz).findIndex bf.name = (esP.length : Int) := by
      rw [QMicroz.findIndex]
      simp [hfind]
    rw [hfi]
    exact @extractData_at
      ⟨some ⟨.reading, esP ++ (⟨bf.name, bf.data,
          if 0 < bf.modified then bf.modified else 0⟩ : ZEntry) :: tl⟩, p,
        absolutePathOf p,
        QMicroz.buildMap (esP ++ (⟨bf.name, bf.data,
          if 0 < bf.modified then bf.modified else 0⟩ : ZEntry) :: tl)⟩
      (esP ++ (⟨bf.name, bf.data,
        if 0 < bf.modified then bf.modified else 0⟩ : ZEntry) :: tl)
      rfl esP.length
      ⟨bf.name, bf.data, if 0 < bf.modified then bf.modified else 0⟩
      (get_append_cons esP _ tl)

theorem C1_roundtrip_files_witness :
    (closeAndReopen (fun _ => none) (nm ("t.zip"))
      ((QMicroz.freshWriter (nm ("t.zip"))).runBufAdds
        ([] ++ ⟨nm ("a.txt"), [104, 105], 0⟩ :: []))).1 = true ∧
    (closeAndReopen (fun _ => none) (nm ("t.zip"))
      ((QMicroz.freshWriter (nm ("t.zip"))).runBufAdds
        ([] ++ ⟨nm ("a.txt"), [104, 105], 0⟩ :: []))).2.1.extractData
      ((closeAndReopen (fun _ => none) (nm ("t.zip"))
        ((QMicroz.freshWriter (nm ("t.zip"))).runBufAdds
          ([] ++ ⟨nm ("a.txt"), [104, 105], 0⟩ :: []))).2.1.findIndex
        (nm ("a.txt"))) = [104, 105] :=
  C1_roundtrip_files (nm ("t.zip")) (fun _ => none) [] []
    ⟨nm ("a.txt"), [104, 105], 0⟩ (by decide) (by decide)

/-! ## extractFolder lemmas (claim C8). -/

theorem dirIndexOfAux_spec (n : Name) :
    ∀ (es : List ZEntry) (i j : Int), dirIndexOfAux i es n = some j →
      ∃ k : Nat, j = i + (k : Int) ∧ ∃ e, es.get? k = some e ∧ e.name = n
  | [], _, _, h => by simp [dirIndexOfAux] at h
  | x :: t, i, j, h => by
    have hstep : dirIndexOfAux i (x :: t) n =
        (if x.name = n then some i else dirIndexOfAux (i + 1) t n) := rfl
    by_cases hx : x.name = n
    · rw [hstep, if_pos hx] at h
      refine ⟨0, ?_, x, rfl, hx⟩
      have hij : i = j := by injection h
      omega
    · rw [hstep, if_neg hx] at h
      obtain ⟨k, hk, e, he, hen⟩ := dirIndexOfAux_spec n t (i + 1) j h
      refine ⟨k + 1, by push_cast; omega, e, ?_, hen⟩
      simpa using he

theorem invR_isModeReading {q : QMicroz} {es : List ZEntry} (h : InvR q es) :
    q.isModeReading = true := by
  simp [QMicroz.isModeReading, h.1, zipMode]

theorem name_of_dirIndex {q : QMicroz} {es : List ZEntry} (h : InvR q es)
    {n : Name} {v : Int} (hv : dirIndexOf es n = some v) : q.name v = n := by
  obtain ⟨k, hk, e, he, hen⟩ := dirIndexOfAux_spec n es 0 v hv
  have hv2 : v = (k : Int) := by omega
  rw [QMicroz.name, h.1, zaFileStat]
  rw [hv2]
  simp [← List.get?_eq_getElem?, he, hen]

theorem extractIndex_true {q : QMicroz} {es : List ZEntry} (h : InvR q es)
    {n : Name} {v : Int} (hv : dirIndexOf es n = some v) (out : Name) :
    q.extractIndex v out = true := by
  obtain ⟨k, hk, e, he, hen⟩ := dirIndexOfAux_spec n es 0 v hv
  have hnm : q.name v = n := name_of_dirIndex h hv
  have hmem : n ∈ namesOf es := by
    by_contra hno
    rw [(dirIndexOf_eq_none_iff es n).mpr hno] at hv
    exact absurd hv (by simp)
  have hne : n ≠ [] := by
    intro hnil
    rw [hnil] at hmem
    exact h.2.2.1 hmem
  rw [QMicroz.extractIndex]
  rw [if_neg (by omega : ¬v = -1)]
  rw [if_neg (by simp [h.1] : ¬q.m_archive = none)]
  have hcond : (!q.isModeReading) = false := by
    rw [invR_isModeReading h]
    rfl
  rw [hcond]
  simp only [Bool.false_eq_true, if_false, hnm]
  rw [if_neg hne]
  by_cases hf : isFileName n = true
  · rw [if_pos hf]
  · rw [if_neg hf]

theorem extractFolderAux_spec (q : QMicroz) (F out : Name) :
    ∀ m : ZMap,
      (∀ kv ∈ m, q.extractIndex kv.2 (joinPath out (kv.1.drop F.length)) = true) →
      q.extractFolderAux F out m =
        (m.any (fun kv => F.isPrefixOf kv.1),
         m.filterMap (fun kv =>
           if F.isPrefixOf kv.1 then
             some (kv.1, joinPath out (kv.1.drop F.length))
           else none))
  | [], _ => rfl
  | kv :: t, hall => by
    have ht := extractFolderAux_spec q F out t
      (fun kv2 h2 => hall kv2 (List.mem_cons_of_mem _ h2))
    obtain ⟨k, v⟩ := kv
    by_cases hpre : F.isPrefixOf k
    · rw [QMicroz.extractFolderAux]
      rw [ht]
      simp only [hpre, if_true]
      rw [hall (k, v) (List.mem_cons_self _ _)]
      simp only [List.filterMap_cons, List.any_cons, hpre]
      simp
    · rw [QMicroz.extractFolderAux]
      rw [ht]
      simp only [List.filterMap_cons, List.any_cons, hpre]
      simp

/-- Claim C8: extractFolder fails (false, nothing extracted) unless the
index names a folder entry; when it does, the extracted set is exactly
the directory entries whose name has the folder's name as prefix (any
depth), each sent to the output path joined with the name minus that
prefix; entries outside the subtree are untouched, and the call returns
true exactly when at least one member was extracted (which always
happens, the folder marker itself being a member). -/
theorem C8_extract_folder (q : QMicroz) (es : List ZEntry) (h : InvR q es)
    (i : Int) (out : Name) :
    (isFolderName (q.name i) = false → q.extractFolder i out = (false, [])) ∧
    (isFolderName (q.name i) = true →
      ((q.extractFolder i out).1 = true ↔ (q.extractFolder i out).2 ≠ []) ∧
      (q.extractFolder i out).1 = true ∧
      (∀ k tgt, (k, tgt) ∈ (q.extractFolder i out).2 ↔
        (k ∈ namesOf es ∧ (q.name i).isPrefixOf k = true ∧
          tgt = joinPath out (k.drop (q.name i).length)))) := by
  obtain ⟨ha, hm, h0, hd⟩ := h
  constructor
  · intro hnof
    rw [QMicroz.extractFolder, if_pos (by simp [QMicroz.isFolder, hnof])]
  · intro hfol
    have hFne : q.name i ≠ [] := by
      intro hnil
      rw [hnil] at hfol
      exact absurd hfol (by simp [isFolderName, endsWithSep])
    have hFmem : q.name i ∈ namesOf es := by
      by_cases hge : 0 ≤ i
      · cases hg : es.get? i.toNat with
        | none =>
          exfalso
          apply hFne
          simp only [QMicroz.name, ha, zaFileStat]
          rw [if_pos hge, hg]
        | some e =>
          have hqe : q.name i = e.name := by
            simp only [QMicroz.name, ha, zaFileStat]
            rw [if_pos hge, hg]
          rw [hqe]
          exact List.mem_map_of_mem ZEntry.name (List.get?_mem hg)
      · exfalso
        apply hFne
        simp only [QMicroz.name, ha, zaFileStat]
        rw [if_neg hge]
    have hall : ∀ kv ∈ QMicroz.buildMap es,
        q.extractIndex kv.2 (joinPath out (kv.1.drop (q.name i).length)) = true := by
      intro kv hkv
      have hlk : mapLookup (QMicroz.buildMap es) kv.1 = some kv.2 :=
        mapLookup_of_mem (sorted_buildMap es) (by
          obtain ⟨k2, v2⟩ := kv
          exact hkv)
      rw [mapLookup_buildMap es h0 hd] at hlk
      exact extractIndex_true ⟨ha, hm, h0, hd⟩ hlk _
    have hrun : q.extractFolder i out =
        ((QMicroz.buildMap es).any (fun kv => (q.name i).isPrefixOf kv.1),
         (QMicroz.buildMap es).filterMap (fun kv =>
           if (q.name i).isPrefixOf kv.1 then
             some (kv.1, joinPath out (kv.1.drop (q.name i).length))
           else none)) := by
      rw [QMicroz.extractFolder, if_neg (by simp [QMicroz.isFolder, hfol]), hm]
      exact extractFolderAux_spec q (q.name i) out (QMicroz.buildMap es)
        (by rw [← hm] at hall ⊢; exact hall)
    have hmemiff : ∀ k tgt, (k, tgt) ∈ (q.extractFolder i out).2 ↔
        (k ∈ namesOf es ∧ (q.name i).isPrefixOf k = true ∧
          tgt = joinPath out (k.drop (q.name i).length)) := by
      intro k tgt
      rw [hrun]
      simp only [List.mem_filterMap]
      constructor
      · rintro ⟨kv, hkv, hsome⟩
        by_cases hpre : (q.name i).isPrefixOf kv.1
        · rw [if_pos hpre] at hsome
          injection hsome with hpair
          obtain ⟨k2, v2⟩ := kv
          have hk2 : k2 = k := congrArg Prod.fst hpair
          have htgt : tgt = joinPath out (k.drop (q.name i).length) := by
            rw [← hk2]
            exact (congrArg Prod.snd hpair).symm
          subst hk2
          refine ⟨?_, hpre, htgt⟩
          rw [mem_key_buildMap es h0 hd]
          exact ⟨v2, hkv⟩
        · rw [if_neg hpre] at hsome
          exact absurd hsome (by simp)
      · rintro ⟨hkmem, hpre, htgt⟩
        obtain ⟨v, hv⟩ := (mem_key_buildMap es h0 hd k).mp hkmem
        refine ⟨(k, v), hv, ?_⟩
        rw [if_pos hpre, htgt]
    refine ⟨?_, ?_, hmemiff⟩
    · rw [hrun]
      simp only [List.any_eq_true, ne_eq]
      constructor
      · rintro ⟨kv, hkv, hpre⟩ hnil
        have hmem2 : (kv.1, joinPath out (kv.1.drop (q.name i).length)) ∈
            (QMicroz.buildMap es).filterMap (fun kv =>
              if (q.name i).isPrefixOf kv.1 then
                some (kv.1, joinPath out (kv.1.drop (q.name i).length))
              else none) := by
          apply List.mem_filterMap.mpr
          exact ⟨kv, hkv, by rw [if_pos hpre]⟩
        rw [hnil] at hmem2
        exact absurd hmem2 (by simp)
      · intro _
        obtain ⟨v, hv⟩ := (mem_key_buildMap es h0 hd (q.name i)).mp hFmem
        exact ⟨(q.name i, v), hv, List.isPrefixOf_iff_prefix.mpr (List.prefix_refl _)⟩
    · rw [hrun]
      simp only [List.any_eq_true]
      obtain ⟨v, hv⟩ := (mem_key_buildMap es h0 hd (q.name i)).mp hFmem
      exact ⟨(q.name i, v), hv, List.isPrefixOf_iff_prefix.mpr (List.prefix_refl _)⟩

theorem C8_extract_folder_witness :
    ((⟨some ⟨.reading, [⟨nm ("r/"), [], 0⟩, ⟨nm ("r/a.txt"), [1], 0⟩,
          ⟨nm ("x.txt"), [2], 0⟩]⟩, nm ("p.zip"), [],
        QMicroz.buildMap [⟨nm ("r/"), [], 0⟩, ⟨nm ("r/a.txt"), [1], 0⟩,
          ⟨nm ("x.txt"), [2], 0⟩]⟩ :
      QMicroz).extractFolder 0 (nm ("X"))).1 = true :=
  ((C8_extract_folder
      ⟨some ⟨.reading, [⟨nm ("r/"), [], 0⟩, ⟨nm ("r/a.txt"), [1], 0⟩,
          ⟨nm ("x.txt"), [2], 0⟩]⟩, nm ("p.zip"), [],
        QMicroz.buildMap [⟨nm ("r/"), [], 0⟩, ⟨nm ("r/a.txt"), [1], 0⟩,
          ⟨nm ("x.txt"), [2], 0⟩]⟩
      [⟨nm ("r/"), [], 0⟩, ⟨nm ("r/a.txt"), [1], 0⟩, ⟨nm ("x.txt"), [2], 0⟩]
      ⟨rfl, rfl, by decide, by decide⟩ 0 (nm ("X"))).2 (by decide)).2.1

/-! ## Tree-add lemmas (claim C7): path algebra. -/

theorem lastIsSep_cons (a : Char) (l : Name) (hl : l ≠ []) :
    lastIsSep (a :: l) = lastIsSep l := by
  cases l with
  | nil => exact absurd rfl hl
  | cons b t => rfl

theorem lastIsSep_append (x : Name) :
    ∀ r : Name, r ≠ [] → lastIsSep (x ++ r) = lastIsSep r := by
  induction x with
  | nil => intro r _; rfl
  | cons a t ih =>
    intro r hr
    rw [List.cons_append, lastIsSep_cons a (t ++ r) (by simp [hr]), ih r hr]

theorem endsWithSep_cons (a : Char) (l : Name) (hl : l ≠ []) :
    endsWithSep (a :: l) = endsWithSep l := by
  cases l with
  | nil => exact absurd rfl hl
  | cons b t => rfl

theorem endsWithSep_append (x : Name) :
    ∀ r : Name, r ≠ [] → endsWithSep (x ++ r) = endsWithSep r := by
  induction x with
  | nil => intro r _; rfl
  | cons a t ih =>
    intro r hr
    rw [List.cons_append, endsWithSep_cons a (t ++ r) (by simp [hr]), ih r hr]

theorem endsWithSep_concat : ∀ (x : Name) (c : Char),
    endsWithSep (x ++ [c]) = decide (c = sepChar)
  | [], _ => rfl
  | [_], _ => rfl
  | _ :: b :: t, c => endsWithSep_concat (b :: t) c

theorem lastIsSep_of_endsWithSep : ∀ n : Name, endsWithSep n = true → lastIsSep n = true
  | [], h => by simp [endsWithSep] at h
  | [c], h => by
    have hc : c = sepChar := by simpa [endsWithSep] using h
    simp [lastIsSep, isSepChar, hc]
  | a :: b :: t, h =>
    lastIsSep_of_endsWithSep (b :: t) h

theorem toFolderName_ends (n : Name) : endsWithSep (toFolderName n) = true := by
  rw [toFolderName]
  by_cases h : endsWithSep n
  · rw [if_pos h]
    exact h
  · rw [if_neg h, endsWithSep_concat]
    simp [sepChar]

theorem toFolderName_ne_nil (n : Name) : toFolderName n ≠ [] := by
  intro hc
  have := toFolderName_ends n
  rw [hc] at this
  simp [endsWithSep] at this

theorem ne_append_of_ne_nil (x r : Name) (hr : r ≠ []) : x ≠ x ++ r := by
  intro h
  have hl := congrArg List.length h
  rw [List.length_append] at hl
  exact hr (List.eq_nil_of_length_eq_zero (by omega))

theorem joinPath_noHead (a r : Name) (hr : headIsSep r = false) :
    joinPath a r = (if lastIsSep a then a else a ++ [sepChar]) ++ r := by
  rw [joinPath]
  by_cases ha : lastIsSep a <;> simp [ha, hr]

theorem fullEntryName_file (en : Name) (it : FsItem) (hk : it.kind = .fsFile)
    (hw : WFItem it) :
    fullEntryName en it = (if lastIsSep en then en else en ++ [sepChar]) ++ it.rel := by
  rw [fullEntryName, emitPair, hk]
  exact joinPath_noHead en it.rel hw.2.1

theorem fullEntryName_dir (en : Name) (it : FsItem) (hk : it.kind = .fsDir)
    (hw : WFItem it) :
    fullEntryName en it =
      (if lastIsSep en then en else en ++ [sepChar]) ++ it.rel ++ [sepChar] := by
  rw [fullEntryName, emitPair, hk]
  have hj : joinPath en it.rel = (if lastIsSep en then en else en ++ [sepChar]) ++ it.rel :=
    joinPath_noHead en it.rel hw.2.1
  have hnotends : endsWithSep (joinPath en it.rel) = false := by
    rw [hj, endsWithSep_append _ it.rel hw.1]
    by_contra hc
    have h2 : endsWithSep it.rel = true := by
      cases he : endsWithSep it.rel
      · exact absurd he hc
      · rfl
    have := lastIsSep_of_endsWithSep it.rel h2
    rw [hw.2.2] at this
    exact Bool.false_ne_true this
  show toFolderName (joinPath en it.rel) = _
  rw [toFolderName, if_neg (by simp [hnotends]), hj]

theorem fullEntryName_ne_nil (en : Name) (it : FsItem) (hw : WFItem it) :
    fullEntryName en it ≠ [] := by
  cases hk : it.kind with
  | fsFile =>
    rw [fullEntryName_file en it hk hw]
    intro hc
    simp at hc
    exact hw.1 hc.2
  | fsDir =>
    rw [fullEntryName_dir en it hk hw]
    intro hc
    simp at hc

/-! ## Tree-add lemmas (claim C7): name distinctness. -/

theorem root_ne_full (en : Name) (it : FsItem) (hw : WFItem it) :
    toFolderName en ≠ fullEntryName en it := by
  by_cases hends : endsWithSep en
  · -- root = en and enB = en
    have hlast : lastIsSep en = true := lastIsSep_of_endsWithSep en hends
    rw [toFolderName, if_pos hends]
    cases hk : it.kind with
    | fsFile =>
      rw [fullEntryName_file en it hk hw, if_pos hlast]
      exact ne_append_of_ne_nil en it.rel hw.1
    | fsDir =>
      rw [fullEntryName_dir en it hk hw, if_pos hlast, List.append_assoc]
      exact ne_append_of_ne_nil en _ (by simp)
  · rw [toFolderName, if_neg hends]
    by_cases hlast : lastIsSep en
    · -- en ends in a backslash: root = en ++ [/], enB = en
      cases hk : it.kind with
      | fsFile =>
        rw [fullEntryName_file en it hk hw, if_pos hlast]
        intro hc
        have hrel : [sepChar] = it.rel := List.append_cancel_left hc
        have : headIsSep it.rel = true := by
          rw [← hrel]
          simp [headIsSep, isSepChar, sepChar]
        rw [hw.2.1] at this
        exact Bool.false_ne_true this
      | fsDir =>
        rw [fullEntryName_dir en it hk hw, if_pos hlast, List.append_assoc]
        intro hc
        have hrel : [sepChar] = it.rel ++ [sepChar] := List.append_cancel_left hc
        have hl := congrArg List.length hrel
        simp at hl
        exact hw.1 hl
    · -- root = enB = en ++ [/]
      cases hk : it.kind with
      | fsFile =>
        rw [fullEntryName_file en it hk hw, if_neg hlast]
        exact ne_append_of_ne_nil (en ++ [sepChar]) it.rel hw.1
      | fsDir =>
        rw [fullEntryName_dir en it hk hw, if_neg hlast, List.append_assoc]
        exact ne_append_of_ne_nil (en ++ [sepChar]) _ (by simp)

theorem fullEntryName_inj (en : Name) (it1 it2 : FsItem) (h1 : WFItem it1)
    (h2 : WFItem it2) (hne : it1.rel ≠ it2.rel) :
    fullEntryName en it1 ≠ fullEntryName en it2 := by
  cases hk1 : it1.kind with
  | fsFile =>
    cases hk2 : it2.kind with
    | fsFile =>
      rw [fullEntryName_file en it1 hk1 h1, fullEntryName_file en it2 hk2 h2]
      intro hc
      exact hne (List.append_cancel_left hc)
    | fsDir =>
      rw [fullEntryName_file en it1 hk1 h1, fullEntryName_dir en it2 hk2 h2,
        List.append_assoc]
      intro hc
      have hrel : it1.rel = it2.rel ++ [sepChar] := List.append_cancel_left hc
      have : lastIsSep it1.rel = true := by
        rw [hrel, lastIsSep_concat]
        simp [isSepChar, sepChar]
      rw [h1.2.2] at this
      exact Bool.false_ne_true this
  | fsDir =>
    cases hk2 : it2.kind with
    | fsFile =>
      rw [fullEntryName_dir en it1 hk1 h1, fullEntryName_file en it2 hk2 h2,
        List.append_assoc]
      intro hc
      have hrel : it1.rel ++ [sepChar] = it2.rel := (List.append_cancel_left hc)
      have : lastIsSep it2.rel = true := by
        rw [← hrel, lastIsSep_concat]
        simp [isSepChar, sepChar]
      rw [h2.2.2] at this
      exact Bool.false_ne_true this
    | fsDir =>
      rw [fullEntryName_dir en it1 hk1 h1, fullEntryName_dir en it2 hk2 h2,
        List.append_assoc, List.append_assoc]
      intro hc
      have hrel : it1.rel ++ [sepChar] = it2.rel ++ [sepChar] :=
        List.append_cancel_left hc
      exact hne (List.append_cancel_right hrel)

theorem marker_prefix_rel (en : Name) (it1 it2 : FsItem) (h1 : WFItem it1)
    (h2 : WFItem it2) (hk1 : it1.kind = .fsDir) (hne : it1.rel ≠ it2.rel)
    (hp : fullEntryName en it1 <+: fullEntryName en it2) :
    it1.rel ++ [sepChar] <+: it2.rel := by
  cases hk2 : it2.kind with
  | fsFile =>
    rw [fullEntryName_dir en it1 hk1 h1, fullEntryName_file en it2 hk2 h2,
      List.append_assoc] at hp
    exact (List.prefix_append_right_inj _).mp hp
  | fsDir =>
    rw [fullEntryName_dir en it1 hk1 h1, fullEntryName_dir en it2 hk2 h2,
      List.append_assoc, List.append_assoc] at hp
    have hp2 : it1.rel ++ [sepChar] <+: it2.rel ++ [sepChar] :=
      (List.prefix_append_right_inj _).mp hp
    rcases List.prefix_concat_iff.mp hp2 with heq | hpre
    · exact absurd (List.append_cancel_right heq) hne
    · exact hpre

/-! ## Tree-add lemmas (claim C7): the walk fold. -/

theorem addFolderOp_eq {q : QMicroz} {es : List ZEntry} (h : InvW q es) (entry : Name) :
    QMicroz.addFolderOp q entry 0 = q.addEntry (toFolderName entry) [] 0 := by
  rw [QMicroz.addFolderOp, addToZipBuf_eq h]
  simp

theorem addDirLoop_run (en : Name) :
    ∀ (listing : List FsItem) (added : Bool) (q : QMicroz) (es : List ZEntry),
      InvW q es →
      (∀ it ∈ listing, WFItem it) →
      (∀ it ∈ listing, fullEntryName en it ∉ namesOf es) →
      (listing.map (fullEntryName en)).Nodup →
      (QMicroz.addDirLoop en added q listing).1 = (added || !listing.isEmpty) ∧
      InvW (QMicroz.addDirLoop en added q listing).2
        (es ++ listing.map (fun it =>
          (⟨fullEntryName en it, (emitPair en it).2, 0⟩ : ZEntry)))
  | [], added, q, es, h, _, _, _ => by
    constructor
    · simp [QMicroz.addDirLoop]
    · simpa [QMicroz.addDirLoop] using h
  | ⟨rel, kind, dat⟩ :: rest, added, q, es, h, hwf, hfr, hnd => by
    have hw : WFItem ⟨rel, kind, dat⟩ := hwf _ (List.mem_cons_self _ _)
    have hfull_ne : fullEntryName en ⟨rel, kind, dat⟩ ≠ [] :=
      fullEntryName_ne_nil en _ hw
    have hfull_fresh : fullEntryName en ⟨rel, kind, dat⟩ ∉ namesOf es :=
      hfr _ (List.mem_cons_self _ _)
    have hwf2 : ∀ it ∈ rest, WFItem it := fun it h2 => hwf it (List.mem_cons_of_mem _ h2)
    have hnotin : fullEntryName en ⟨rel, kind, dat⟩ ∉ rest.map (fullEntryName en) := by
      have := hnd
      rw [List.map_cons, List.nodup_cons] at this
      exact this.1
    have hnd2 : (rest.map (fullEntryName en)).Nodup := by
      have := hnd
      rw [List.map_cons, List.nodup_cons] at this
      exact this.2
    cases kind with
    | fsFile =>
      have hres := addEntry_fresh h dat 0 hfull_ne hfull_fresh
      have hinv1 := invW_addEntry h dat 0 hfull_ne hfull_fresh
      rw [hres] at hinv1
      have hfr2 : ∀ it ∈ rest, fullEntryName en it ∉
          namesOf (es ++ [⟨fullEntryName en ⟨rel, .fsFile, dat⟩, dat, 0⟩]) := by
        intro it h2 hmem
        rw [show namesOf (es ++ [(⟨fullEntryName en ⟨rel, .fsFile, dat⟩, dat, 0⟩ : ZEntry)]) =
          namesOf es ++ [fullEntryName en ⟨rel, .fsFile, dat⟩] by simp [namesOf]] at hmem
        rcases List.mem_append.mp hmem with hmem | hmem
        · exact hfr it (List.mem_cons_of_mem _ h2) hmem
        · simp at hmem
          exact hnotin (hmem ▸ List.mem_map_of_mem (fullEntryName en) h2)
      have hone : QMicroz.addDirLoop en added q (⟨rel, .fsFile, dat⟩ :: rest) =
          QMicroz.addDirLoop en (added || true)
            ({ q with
               m_archive := some ⟨.writing,
                 es ++ [⟨fullEntryName en ⟨rel, .fsFile, dat⟩, dat, 0⟩]⟩,
               m_zip_entries := QMicroz.buildMap
                 (es ++ [⟨fullEntryName en ⟨rel, .fsFile, dat⟩, dat, 0⟩]) }) rest := by
        show QMicroz.addDirLoop en
            (added || (q.addEntry (fullEntryName en ⟨rel, .fsFile, dat⟩) dat 0).1)
            (q.addEntry (fullEntryName en ⟨rel, .fsFile, dat⟩) dat 0).2 rest = _
        rw [hres]
      obtain ⟨ihflag, ihinv⟩ :=
        addDirLoop_run en rest (added || true) _ _ hinv1 hwf2 hfr2 hnd2
      constructor
      · rw [hone, ihflag]
        simp
      · rw [hone]
        have hlist : es ++ (List.map (fun it =>
            (⟨fullEntryName en it, (emitPair en it).2, 0⟩ : ZEntry))
              (⟨rel, .fsFile, dat⟩ :: rest)) =
            (es ++ [(⟨fullEntryName en ⟨rel, .fsFile, dat⟩, dat, 0⟩ : ZEntry)]) ++
              List.map (fun it =>
                (⟨fullEntryName en it, (emitPair en it).2, 0⟩ : ZEntry)) rest := by
          simp [emitPair]
        rw [hlist]
        exact ihinv
    | fsDir =>
      have hop : QMicroz.addFolderOp q (joinPath en rel) 0 =
          q.addEntry (fullEntryName en ⟨rel, .fsDir, dat⟩) [] 0 := by
        rw [addFolderOp_eq h (joinPath en rel)]
        rfl
      have hres := addEntry_fresh h ([] : Bytes) 0 hfull_ne hfull_fresh
      have hinv1 := invW_addEntry h ([] : Bytes) 0 hfull_ne hfull_fresh
      rw [hres] at hinv1
      have hfr2 : ∀ it ∈ rest, fullEntryName en it ∉
          namesOf (es ++ [⟨fullEntryName en ⟨rel, .fsDir, dat⟩, [], 0⟩]) := by
        intro it h2 hmem
        rw [show namesOf (es ++ [(⟨fullEntryName en ⟨rel, .fsDir, dat⟩, [], 0⟩ : ZEntry)]) =
          namesOf es ++ [fullEntryName en ⟨rel, .fsDir, dat⟩] by simp [namesOf]] at hmem
        rcases List.mem_append.mp hmem with hmem | hmem
        · exact hfr it (List.mem_cons_of_mem _ h2) hmem
        · simp at hmem
          exact hnotin (hmem ▸ List.mem_map_of_mem (fullEntryName en) h2)
      have hone : QMicroz.addDirLoop en added q (⟨rel, .fsDir, dat⟩ :: rest) =
          QMicroz.addDirLoop en (added || true)
            ({ q with
               m_archive := some ⟨.writing,
                 es ++ [⟨fullEntryName en ⟨rel, .fsDir, dat⟩, [], 0⟩]⟩,
               m_zip_entries := QMicroz.buildMap
                 (es ++ [⟨fullEntryName en ⟨rel, .fsDir, dat⟩, [], 0⟩]) }) rest := by
        show QMicroz.addDirLoop en
            (added || (QMicroz.addFolderOp q (joinPath en rel) 0).1)
            (QMicroz.addFolderOp q (joinPath en rel) 0).2 rest = _
        rw [hop, hres]
      obtain ⟨ihflag, ihinv⟩ :=
        addDirLoop_run en rest (added || true) _ _ hinv1 hwf2 hfr2 hnd2
      constructor
      · rw [hone, ihflag]
        simp
      · rw [hone]
        have hlist : es ++ (List.map (fun it =>
            (⟨fullEntryName en it, (emitPair en it).2, 0⟩ : ZEntry))
              (⟨rel, .fsDir, dat⟩ :: rest)) =
            (es ++ [(⟨fullEntryName en ⟨rel, .fsDir, dat⟩, [], 0⟩ : ZEntry)]) ++
              List.map (fun it =>
                (⟨fullEntryName en it, (emitPair en it).2, 0⟩ : ZEntry)) rest := by
          simp [emitPair]
        rw [hlist]
        exact ihinv

/-! ## Tree-add lemmas (claim C7): index positions. -/

theorem dirIndexOfAux_mid :
    ∀ (E : List ZEntry) (k : Nat) (e : ZEntry), E.get? k = some e →
      (∀ j, j < k → ∀ e2, E.get? j = some e2 → e2.name ≠ e.name) →
      ∀ i : Int, dirIndexOfAux i E e.name = some (i + (k : Int))
  | [], k, e, he, _, i => by simp at he
  | x :: t, 0, e, he, _, i => by
    have hx : x = e := by simpa using he
    show (if x.name = e.name then some i else dirIndexOfAux (i + 1) t e.name) = _
    rw [if_pos (by rw [hx])]
    norm_num
  | x :: t, k + 1, e, he, hbefore, i => by
    have hx : x.name ≠ e.name := hbefore 0 (Nat.succ_pos k) x rfl
    show (if x.name = e.name then some i else dirIndexOfAux (i + 1) t e.name) = _
    rw [if_neg hx,
      dirIndexOfAux_mid t k e (by simpa using he)
        (fun j hj e2 h2 => hbefore (j + 1) (by omega) e2 (by simpa using h2)) (i + 1)]
    congr 1
    push_cast
    ring

theorem nodup_get_ne {α : Type} {l : List α} (h : l.Nodup) {i j : Nat} (hij : i ≠ j)
    {a b : α} (h1 : l.get? i = some a) (h2 : l.get? j = some b) : a ≠ b := by
  intro he
  subst he
  have hlt : i < l.length := (List.get?_eq_some.mp h1).1
  exact hij (List.get?_inj hlt h (h1.trans h2.symm))

theorem dirIndexOf_append_pos (es E : List ZEntry) (k : Nat) (e : ZEntry)
    (he : E.get? k = some e) (hfr : e.name ∉ namesOf es)
    (hnd : (namesOf E).Nodup) :
    dirIndexOf (es ++ E) e.name = some ((es.length : Int) + (k : Int)) := by
  have hmid := dirIndexOfAux_mid (es ++ E) (es.length + k) e ?_ ?_ 0
  · rw [dirIndexOf, hmid]
    congr 1
    push_cast
    ring
  · rw [List.get?_append_right (by omega)]
    simpa using he
  · intro j hj e2 h2 hname
    by_cases hjlt : j < es.length
    · rw [List.get?_append hjlt] at h2
      apply hfr
      rw [← hname]
      exact List.mem_map_of_mem ZEntry.name (List.get?_mem h2)
    · rw [List.get?_append_right (by omega)] at h2
      have hEname1 : (namesOf E).get? (j - es.length) = some e2.name := by
        rw [namesOf, List.get?_map, h2]
        rfl
      have hEname2 : (namesOf E).get? k = some e.name := by
        rw [namesOf, List.get?_map, he]
        rfl
      exact nodup_get_ne hnd (by omega : j - es.length ≠ k) hEname1 hEname2 hname

theorem length_eq_counts (listing : List FsItem) :
    listing.length = countFiles listing + countDirs listing := by
  induction listing with
  | nil => rfl
  | cons it rest ih =>
    simp only [List.length_cons, countFiles, countDirs, List.countP_cons]
    simp only [countFiles, countDirs] at ih
    rw [ih]
    cases hk : it.kind <;> simp [hk] <;> omega

/-- Claim C7: recursively adding a walked directory tree (N files, M
subdirectories) with a fresh entry name into a writing session succeeds,
creates exactly N+M+1 new entries (the root folder marker plus one per
walked item), gives every folder marker a separator-terminated name, and
assigns every folder marker a directory index strictly smaller than that
of each of its descendants (entries whose full name extends the
marker's), the root marker preceding every walked item. -/
theorem C7_tree_add (q : QMicroz) (es : List ZEntry) (en : Name)
    (listing : List FsItem) (h : InvW q es) (hen : en ≠ [])
    (hwf : ∀ it ∈ listing, WFItem it)
    (hconfroot : toFolderName en ∉ namesOf es)
    (hconf : ∀ it ∈ listing, fullEntryName en it ∉ namesOf es)
    (hndrel : (listing.map FsItem.rel).Nodup)
    (hdfs : ∀ (j1 : Nat) (hj1 : j1 < listing.length) (j2 : Nat)
      (hj2 : j2 < listing.length),
      (listing.get ⟨j1, hj1⟩).kind = .fsDir →
      (listing.get ⟨j1, hj1⟩).rel ++ [sepChar] <+: (listing.get ⟨j2, hj2⟩).rel →
      j1 < j2) :
    (q.addToZipDir en listing).1 = true ∧
    (q.addToZipDir en listing).2.count =
      q.count + 1 + (countFiles listing : Int) + (countDirs listing : Int) ∧
    listing.length = countFiles listing + countDirs listing ∧
    endsWithSep (toFolderName en) = true ∧
    (∀ it ∈ listing, it.kind = .fsDir → endsWithSep (fullEntryName en it) = true) ∧
    (∀ (j : Nat) (hj : j < listing.length),
      ∃ a b : Int,
        mapLookup (q.addToZipDir en listing).2.m_zip_entries (toFolderName en) =
          some a ∧
        mapLookup (q.addToZipDir en listing).2.m_zip_entries
          (fullEntryName en (listing.get ⟨j, hj⟩)) = some b ∧ a < b) ∧
    (∀ (j1 : Nat) (hj1 : j1 < listing.length) (j2 : Nat) (hj2 : j2 < listing.length),
      (listing.get ⟨j1, hj1⟩).kind = .fsDir → j1 ≠ j2 →
      fullEntryName en (listing.get ⟨j1, hj1⟩) <+:
        fullEntryName en (listing.get ⟨j2, hj2⟩) →
      ∃ a b : Int,
        mapLookup (q.addToZipDir en listing).2.m_zip_entries
          (fullEntryName en (listing.get ⟨j1, hj1⟩)) = some a ∧
        mapLookup (q.addToZipDir en listing).2.m_zip_entries
          (fullEntryName en (listing.get ⟨j2, hj2⟩)) = some b ∧ a < b) := by
  have hitems : listing.Nodup := List.Nodup.of_map FsItem.rel hndrel
  have hpw : listing.Pairwise (fun a b => a.rel ≠ b.rel) := List.pairwise_map.mp hndrel
  have hmapnd : (listing.map (fullEntryName en)).Nodup := by
    apply List.Nodup.map_on ?_ hitems
    intro x hx y hy hxy
    by_contra hne
    have hforall := List.Pairwise.forall
      (by intro a b hab; exact fun he => hab he.symm :
        Symmetric fun a b : FsItem => a.rel ≠ b.rel) hpw
    exact fullEntryName_inj en x y (hwf x hx) (hwf y hy)
      (hforall hx hy hne) hxy
  have hrootne : toFolderName en ≠ [] := toFolderName_ne_nil en
  have hres0 := addEntry_fresh h ([] : Bytes) 0 hrootne hconfroot
  have hinv0 := invW_addEntry h ([] : Bytes) 0 hrootne hconfroot
  rw [hres0] at hinv0
  have hred : q.addToZipDir en listing =
      QMicroz.addDirLoop en true
        ({ q with
           m_archive := some ⟨.writing, es ++ [⟨toFolderName en, [], 0⟩]⟩,
           m_zip_entries := QMicroz.buildMap (es ++ [⟨toFolderName en, [], 0⟩]) })
        listing := by
    simp only [QMicroz.addToZipDir, h.1, hen, invW_isModeWriting h]
    simp only [Option.some.injEq, reduceCtorEq, decide_False, Bool.false_or,
      Bool.not_true, Bool.false_eq_true, if_false]
    rw [addFolderOp_eq h en, hres0]
  have hconf2 : ∀ it ∈ listing, fullEntryName en it ∉
      namesOf (es ++ [⟨toFolderName en, [], 0⟩]) := by
    intro it h2 hmem
    rw [show namesOf (es ++ [(⟨toFolderName en, [], 0⟩ : ZEntry)]) =
      namesOf es ++ [toFolderName en] by simp [namesOf]] at hmem
    rcases List.mem_append.mp hmem with hmem | hmem
    · exact hconf it h2 hmem
    · simp at hmem
      exact root_ne_full en it (hwf it h2) hmem.symm
  obtain ⟨hflag, hinvF⟩ := addDirLoop_run en listing true _ _ hinv0 hwf hconf2 hmapnd
  rw [show (es ++ [(⟨toFolderName en, [], 0⟩ : ZEntry)]) ++
      listing.map (fun it => (⟨fullEntryName en it, (emitPair en it).2, 0⟩ : ZEntry)) =
      es ++ ((⟨toFolderName en, [], 0⟩ : ZEntry) ::
        listing.map (fun it =>
          (⟨fullEntryName en it, (emitPair en it).2, 0⟩ : ZEntry))) by simp] at hinvF
  have hndE : (namesOf ((⟨toFolderName en, [], 0⟩ : ZEntry) ::
      listing.map (fun it =>
        (⟨fullEntryName en it, (emitPair en it).2, 0⟩ : ZEntry)))).Nodup := by
    have hdF := hinvF.2.2.2
    rw [show namesOf (es ++ ((⟨toFolderName en, [], 0⟩ : ZEntry) ::
      listing.map (fun it =>
        (⟨fullEntryName en it, (emitPair en it).2, 0⟩ : ZEntry)))) =
      namesOf es ++ namesOf ((⟨toFolderName en, [], 0⟩ : ZEntry) ::
        listing.map (fun it =>
          (⟨fullEntryName en it, (emitPair en it).2, 0⟩ : ZEntry)))
      by simp [namesOf]] at hdF
    exact hdF.of_append_right
  refine ⟨?_, ?_, length_eq_counts listing, toFolderName_ends en, ?_, ?_, ?_⟩
  · rw [hred, hflag]
    simp
  · rw [hred]
    have hc1 : (QMicroz.addDirLoop en true
        ({ q with
           m_archive := some ⟨.writing, es ++ [⟨toFolderName en, [], 0⟩]⟩,
           m_zip_entries := QMicroz.buildMap (es ++ [⟨toFolderName en, [], 0⟩]) })
        listing).2.count =
        ((es ++ ((⟨toFolderName en, [], 0⟩ : ZEntry) ::
          listing.map (fun it =>
            (⟨fullEntryName en it, (emitPair en it).2, 0⟩ : ZEntry)))).length : Int) := by
      simp only [QMicroz.count, hinvF.1]
    have hc2 : q.count = (es.length : Int) := by
      simp only [QMicroz.count, h.1]
    rw [hc1, hc2]
    have hlen := length_eq_counts listing
    simp only [List.length_append, List.length_cons, List.length_map]
    push_cast [hlen]
    ring
  · rintro ⟨rel2, kind2, dat2⟩ h2 hk
    cases hk
    show endsWithSep (toFolderName (joinPath en rel2)) = true
    exact toFolderName_ends _
  · intro j hj
    refine ⟨(es.length : Int) + 0, (es.length : Int) + ((j : Int) + 1), ?_, ?_, ?_⟩
    · rw [hred, hinvF.2.1, mapLookup_buildMap _ hinvF.2.2.1 hinvF.2.2.2]
      have hget0 : ((⟨toFolderName en, [], 0⟩ : ZEntry) ::
          listing.map (fun it =>
            (⟨fullEntryName en it, (emitPair en it).2, 0⟩ : ZEntry))).get? 0 =
          some ⟨toFolderName en, [], 0⟩ := rfl
      exact dirIndexOf_append_pos es _ 0 _ hget0 hconfroot hndE
    · rw [hred, hinvF.2.1, mapLookup_buildMap _ hinvF.2.2.1 hinvF.2.2.2]
      have hget : ((⟨toFolderName en, [], 0⟩ : ZEntry) ::
          listing.map (fun it =>
            (⟨fullEntryName en it, (emitPair en it).2, 0⟩ : ZEntry))).get? (j + 1) =
          some ⟨fullEntryName en (listing.get ⟨j, hj⟩),
            (emitPair en (listing.get ⟨j, hj⟩)).2, 0⟩ := by
        show (listing.map (fun it =>
          (⟨fullEntryName en it, (emitPair en it).2, 0⟩ : ZEntry))).get? j = _
        rw [List.get?_map, List.get?_eq_get hj]
        rfl
      have := dirIndexOf_append_pos es _ (j + 1) _ hget
        (hconf _ (List.get_mem listing j hj)) hndE
      rw [this]
      exact congrArg some (by push_cast; ring)
    · omega
  · intro j1 hj1 j2 hj2 hk1 hne hp
    have hm1 : (listing.map FsItem.rel).get? j1 =
        some (listing.get ⟨j1, hj1⟩).rel := by
      rw [List.get?_map, List.get?_eq_get hj1]
      rfl
    have hm2 : (listing.map FsItem.rel).get? j2 =
        some (listing.get ⟨j2, hj2⟩).rel := by
      rw [List.get?_map, List.get?_eq_get hj2]
      rfl
    have hrelne : (listing.get ⟨j1, hj1⟩).rel ≠ (listing.get ⟨j2, hj2⟩).rel :=
      nodup_get_ne hndrel hne hm1 hm2
    have hrelp := marker_prefix_rel en _ _
      (hwf _ (List.get_mem listing j1 hj1)) (hwf _ (List.get_mem listing j2 hj2))
      hk1 hrelne hp
    have hlt := hdfs j1 hj1 j2 hj2 hk1 hrelp
    refine ⟨(es.length : Int) + ((j1 : Int) + 1), (es.length : Int) + ((j2 : Int) + 1),
      ?_, ?_, ?_⟩
    · rw [hred, hinvF.2.1, mapLookup_buildMap _ hinvF.2.2.1 hinvF.2.2.2]
      have hget : ((⟨toFolderName en, [], 0⟩ : ZEntry) ::
          listing.map (fun it =>
            (⟨fullEntryName en it, (emitPair en it).2, 0⟩ : ZEntry))).get? (j1 + 1) =
          some ⟨fullEntryName en (listing.get ⟨j1, hj1⟩),
            (emitPair en (listing.get ⟨j1, hj1⟩)).2, 0⟩ := by
        show (listing.map (fun it =>
          (⟨fullEntryName en it, (emitPair en it).2, 0⟩ : ZEntry))).get? j1 = _
        rw [List.get?_map, List.get?_eq_get hj1]
        rfl
      have := dirIndexOf_append_pos es _ (j1 + 1) _ hget
        (hconf _ (List.get_mem listing j1 hj1)) hndE
      rw [this]
      exact congrArg some (by push_cast; ring)
    · rw [hred, hinvF.2.1, mapLookup_buildMap _ hinvF.2.2.1 hinvF.2.2.2]
      have hget : ((⟨toFolderName en, [], 0⟩ : ZEntry) ::
          listing.map (fun it =>
            (⟨fullEntryName en it, (emitPair en it).2, 0⟩ : ZEntry))).get? (j2 + 1) =
          some ⟨fullEntryName en (listing.get ⟨j2, hj2⟩),
            (emitPair en (listing.get ⟨j2, hj2⟩)).2, 0⟩ := by
        show (listing.map (fun it =>
          (⟨fullEntryName en it, (emitPair en it).2, 0⟩ : ZEntry))).get? j2 = _
        rw [List.get?_map, List.get?_eq_get hj2]
        rfl
      have := dirIndexOf_append_pos es _ (j2 + 1) _ hget
        (hconf _ (List.get_mem listing j2 hj2)) hndE
      rw [this]
      exact congrArg some (by push_cast; ring)
    · omega

theorem C7_tree_add_witness :
    ((QMicroz.freshWriter (nm ("out.zip"))).addToZipDir (nm ("root")) demoListing).1
      = true ∧
    ((QMicroz.freshWriter (nm ("out.zip"))).addToZipDir (nm ("root")) demoListing).2.count
      = (QMicroz.freshWriter (nm ("out.zip"))).count + 1 +
        (countFiles demoListing : Int) + (countDirs demoListing : Int) := by
  have h := C7_tree_add (QMicroz.freshWriter (nm ("out.zip"))) [] (nm ("root"))
    demoListing
    ⟨rfl, rfl, by simp [namesOf], by simp [namesOf]⟩
    (by decide)
    (by
      intro it hit
      simp only [demoListing, List.mem_cons, List.not_mem_nil, or_false] at hit
      rcases hit with h1 | h1 | h1 <;> subst h1 <;>
        exact ⟨by decide, by decide, by decide⟩)
    (by simp [namesOf])
    (by intro it _; simp [namesOf])
    (by decide)
    (by decide)
  exact ⟨h.1, h.2.1⟩
